import Mathlib

/-!
Verification development for the astropy-workshop notebooks' specified core:
a coordinate transform engine (pixel <-> sky with optional distortion
polynomials and an iterative inverse) and a source detection / deblending /
measurement engine, as described in the repository's specification.

The notebooks under `src/` only call external libraries (astropy.wcs,
photutils); the algorithmic content the claims refer to is not present in
the repository's own files.  Following the specification, the operations
are therefore modelled here from the spec's words.  Sky coordinates and
transform arithmetic are modelled over exact reals; the segmentation
engine is modelled over rationals so that it is fully executable.
-/

/-- Modelled from the spec: the error kinds of the coordinate transform
engine (section 7).  `EmptyDetection` and `DeblendFailed` are not errors
(the spec returns ordinary values for them), so they do not appear here. -/
inductive TError where
  | invalidFrame
  | projectionSingularity
  | inverseDidNotConverge
deriving DecidableEq, Repr

/-- Modelled from the spec: the 2x2 linear transform matrix
(pixel-scale-and-rotation) of a coordinate frame. -/
structure Matrix2 where
  a : ℝ
  b : ℝ
  c : ℝ
  d : ℝ

/-- Determinant of the 2x2 linear transform; the frame is degenerate
(invalid) when this is zero. -/
def Matrix2.det (m : Matrix2) : ℝ := m.a * m.d - m.b * m.c

/-- Apply the linear transform to a 2-vector. -/
def Matrix2.apply (m : Matrix2) (v : ℝ × ℝ) : ℝ × ℝ :=
  (m.a * v.1 + m.b * v.2, m.c * v.1 + m.d * v.2)

/-- Apply the inverse of the linear transform (Cramer's rule); junk when
the matrix is singular, which the engine guards against. -/
noncomputable def Matrix2.applyInv (m : Matrix2) (v : ℝ × ℝ) : ℝ × ℝ :=
  ((m.d * v.1 - m.b * v.2) / m.det, (m.a * v.2 - m.c * v.1) / m.det)

theorem Matrix2.applyInv_apply (m : Matrix2) (hm : m.det ≠ 0) (v : ℝ × ℝ) :
    m.applyInv (m.apply v) = v := by
  have h : m.a * m.d - m.b * m.c ≠ 0 := hm
  simp only [Matrix2.applyInv, Matrix2.apply, Matrix2.det, Prod.ext_iff]
  constructor <;> (field_simp; ring)

theorem Matrix2.apply_applyInv (m : Matrix2) (hm : m.det ≠ 0) (v : ℝ × ℝ) :
    m.apply (m.applyInv v) = v := by
  have h : m.a * m.d - m.b * m.c ≠ 0 := hm
  simp only [Matrix2.applyInv, Matrix2.apply, Matrix2.det, Prod.ext_iff]
  constructor <;> (field_simp; ring)

/-- Modelled from the spec: a distortion polynomial for one axis, an
ordered mapping from exponent pair to coefficient. -/
structure Poly2 where
  terms : List ((ℕ × ℕ) × ℝ)

/-- Evaluate a two-variable polynomial. -/
noncomputable def Poly2.eval (p : Poly2) (u v : ℝ) : ℝ :=
  (p.terms.map (fun t => t.2 * u ^ t.1.1 * v ^ t.1.2)).sum

/-- A distortion polynomial pair, one polynomial per axis. -/
structure PolyPair where
  px : Poly2
  py : Poly2

/-- Evaluate the polynomial pair on a 2-vector. -/
noncomputable def PolyPair.eval (pp : PolyPair) (w : ℝ × ℝ) : ℝ × ℝ :=
  (pp.px.eval w.1 w.2, pp.py.eval w.1 w.2)

/-- Modelled from the spec: the distortion convention the frame declares.
SIP evaluates the forward correction at the pre-transform pixel offsets,
TPV at the post-transform intermediate coordinates. -/
inductive DistConvention where
  | sip
  | tpv
deriving DecidableEq, Repr

/-- Modelled from the spec: the optional distortion attached to a frame,
with a forward ("pixel-to-intermediate") polynomial pair and, if present,
an inverse ("intermediate-to-pixel") polynomial pair. -/
structure Distortion where
  convention : DistConvention
  forward : PolyPair
  inverse : Option PolyPair

/-- Modelled from the spec: the enumerated projection kind
("tangent-plane, etc."); `plate` is the linear plate carree projection. -/
inductive ProjectionKind where
  | tangent
  | plate
deriving DecidableEq, Repr

/-- Modelled from the spec: an immutable record describing a pixel grid's
mapping to sky coordinates (section 3).  Reference pixel, reference sky
position in degrees, 2x2 linear transform, projection kind, optional
distortion polynomial. -/
structure CoordinateFrame where
  crpix : ℝ × ℝ
  crval : ℝ × ℝ
  cd : Matrix2
  projKind : ProjectionKind
  distortion : Option Distortion

/-- A frame is valid when its linear transform matrix is invertible. -/
def CoordinateFrame.valid (f : CoordinateFrame) : Prop := f.cd.det ≠ 0

/-- Degrees to radians. -/
noncomputable def deg2rad (x : ℝ) : ℝ := x * (Real.pi / 180)

/-- Radians to degrees. -/
noncomputable def rad2deg (x : ℝ) : ℝ := x * (180 / Real.pi)

theorem deg2rad_rad2deg (x : ℝ) : deg2rad (rad2deg x) = x := by
  unfold deg2rad rad2deg
  field_simp

abbrev V3 := ℝ × ℝ × ℝ

/-- Unit direction vector of a sky position given in radians. -/
noncomputable def dirOf (a d : ℝ) : V3 :=
  (Real.cos d * Real.cos a, Real.cos d * Real.sin a, Real.sin d)

/-- Sky angles (radians) of a direction vector: longitude via the complex
argument of the equatorial components, latitude via arcsine. -/
noncomputable def anglesOf (v : V3) : ℝ × ℝ :=
  (Complex.arg ⟨v.1, v.2.1⟩, Real.arcsin v.2.2)

/-- Euclidean dot product on 3-vectors. -/
noncomputable def dot3 (u v : V3) : ℝ :=
  u.1 * v.1 + u.2.1 * v.2.1 + u.2.2 * v.2.2

/-- Scalar multiple of a 3-vector. -/
noncomputable def smul3 (c : ℝ) (v : V3) : V3 := (c * v.1, c * v.2.1, c * v.2.2)

/-- Sum of two 3-vectors. -/
noncomputable def add3 (u v : V3) : V3 := (u.1 + v.1, u.2.1 + v.2.1, u.2.2 + v.2.2)

/-- Direction of the reference sky position (the projection center). -/
noncomputable def rHat (f : CoordinateFrame) : V3 :=
  dirOf (deg2rad f.crval.1) (deg2rad f.crval.2)

/-- Unit vector pointing east on the tangent plane at the reference. -/
noncomputable def eHat (f : CoordinateFrame) : V3 :=
  (-Real.sin (deg2rad f.crval.1), Real.cos (deg2rad f.crval.1), 0)

/-- Unit vector pointing north on the tangent plane at the reference. -/
noncomputable def nHat (f : CoordinateFrame) : V3 :=
  (-(Real.sin (deg2rad f.crval.2) * Real.cos (deg2rad f.crval.1)),
   -(Real.sin (deg2rad f.crval.2) * Real.sin (deg2rad f.crval.1)),
   Real.cos (deg2rad f.crval.2))

/-- Point of the tangent plane identified by intermediate coordinates
(x, y) in radians, expressed as a 3-vector. -/
noncomputable def tanPlaneVec (f : CoordinateFrame) (x y : ℝ) : V3 :=
  add3 (rHat f) (add3 (smul3 x (eHat f)) (smul3 y (nHat f)))

/-- Gnomonic (tangent-plane) projection of intermediate coordinates
(degrees on the tangent plane) to a sky position (degrees). -/
noncomputable def projTan (f : CoordinateFrame) (t : ℝ × ℝ) : ℝ × ℝ :=
  let x := deg2rad t.1
  let y := deg2rad t.2
  let w := tanPlaneVec f x y
  let v := smul3 (1 / Real.sqrt (1 + x ^ 2 + y ^ 2)) w
  (rad2deg (anglesOf v).1, rad2deg (anglesOf v).2)

/-- Inverse gnomonic projection: undefined (projection singularity) on the
hemisphere facing away from the projection center. -/
noncomputable def projTanInv (f : CoordinateFrame) (s : ℝ × ℝ) :
    Except TError (ℝ × ℝ) :=
  let v := dirOf (deg2rad s.1) (deg2rad s.2)
  let mu := dot3 v (rHat f)
  if mu ≤ 0 then .error .projectionSingularity
  else .ok (rad2deg (dot3 v (eHat f) / mu), rad2deg (dot3 v (nHat f) / mu))

/-- Apply the declared spherical projection, using the reference sky
position as projection center. -/
noncomputable def proj (f : CoordinateFrame) (t : ℝ × ℝ) : ℝ × ℝ :=
  match f.projKind with
  | .plate => (f.crval.1 + t.1, f.crval.2 + t.2)
  | .tangent => projTan f t

/-- Invert the declared spherical projection; fails with
`ProjectionSingularity` where the projection has no inverse. -/
noncomputable def projInv (f : CoordinateFrame) (s : ℝ × ℝ) :
    Except TError (ℝ × ℝ) :=
  match f.projKind with
  | .plate => .ok (s.1 - f.crval.1, s.2 - f.crval.2)
  | .tangent => projTanInv f s

theorem rad2deg_deg2rad (x : ℝ) : rad2deg (deg2rad x) = x := by
  unfold deg2rad rad2deg
  field_simp

theorem dot3_self (v : V3) : dot3 v v = v.1 ^ 2 + v.2.1 ^ 2 + v.2.2 ^ 2 := by
  unfold dot3; ring

theorem dot3_comm (u v : V3) : dot3 u v = dot3 v u := by
  unfold dot3; ring

theorem dot3_add3_left (u v w : V3) :
    dot3 (add3 u v) w = dot3 u w + dot3 v w := by
  unfold dot3 add3; ring

theorem dot3_smul3_left (c : ℝ) (u w : V3) :
    dot3 (smul3 c u) w = c * dot3 u w := by
  unfold dot3 smul3; ring

theorem rHat_dot_rHat (f : CoordinateFrame) : dot3 (rHat f) (rHat f) = 1 := by
  unfold dot3 rHat dirOf
  linear_combination (Real.cos (deg2rad f.crval.2)) ^ 2 *
      Real.sin_sq_add_cos_sq (deg2rad f.crval.1) +
    Real.sin_sq_add_cos_sq (deg2rad f.crval.2)

theorem eHat_dot_eHat (f : CoordinateFrame) : dot3 (eHat f) (eHat f) = 1 := by
  unfold dot3 eHat
  linear_combination Real.sin_sq_add_cos_sq (deg2rad f.crval.1)

theorem nHat_dot_nHat (f : CoordinateFrame) : dot3 (nHat f) (nHat f) = 1 := by
  unfold dot3 nHat
  linear_combination (Real.sin (deg2rad f.crval.2)) ^ 2 *
      Real.sin_sq_add_cos_sq (deg2rad f.crval.1) +
    Real.sin_sq_add_cos_sq (deg2rad f.crval.2)

theorem rHat_dot_eHat (f : CoordinateFrame) : dot3 (rHat f) (eHat f) = 0 := by
  unfold dot3 rHat eHat dirOf; ring

theorem rHat_dot_nHat (f : CoordinateFrame) : dot3 (rHat f) (nHat f) = 0 := by
  unfold dot3 rHat nHat dirOf
  linear_combination (-(Real.sin (deg2rad f.crval.2) * Real.cos (deg2rad f.crval.2))) *
    Real.sin_sq_add_cos_sq (deg2rad f.crval.1)

theorem eHat_dot_nHat (f : CoordinateFrame) : dot3 (eHat f) (nHat f) = 0 := by
  unfold dot3 eHat nHat; ring

theorem tanPlaneVec_dot_rHat (f : CoordinateFrame) (x y : ℝ) :
    dot3 (tanPlaneVec f x y) (rHat f) = 1 := by
  unfold tanPlaneVec
  rw [dot3_add3_left, dot3_add3_left, dot3_smul3_left, dot3_smul3_left,
    rHat_dot_rHat, dot3_comm (eHat f), rHat_dot_eHat, dot3_comm (nHat f), rHat_dot_nHat]
  ring

theorem tanPlaneVec_dot_eHat (f : CoordinateFrame) (x y : ℝ) :
    dot3 (tanPlaneVec f x y) (eHat f) = x := by
  unfold tanPlaneVec
  rw [dot3_add3_left, dot3_add3_left, dot3_smul3_left, dot3_smul3_left,
    rHat_dot_eHat, eHat_dot_eHat, dot3_comm (nHat f), eHat_dot_nHat]
  ring

theorem tanPlaneVec_dot_nHat (f : CoordinateFrame) (x y : ℝ) :
    dot3 (tanPlaneVec f x y) (nHat f) = y := by
  unfold tanPlaneVec
  rw [dot3_add3_left, dot3_add3_left, dot3_smul3_left, dot3_smul3_left,
    rHat_dot_nHat, eHat_dot_nHat, nHat_dot_nHat]
  ring

theorem dot3_add3_right (u v w : V3) :
    dot3 u (add3 v w) = dot3 u v + dot3 u w := by
  unfold dot3 add3; ring

theorem dot3_smul3_right (c : ℝ) (u w : V3) :
    dot3 u (smul3 c w) = c * dot3 u w := by
  unfold dot3 smul3; ring

theorem tanPlaneVec_dot_self (f : CoordinateFrame) (x y : ℝ) :
    dot3 (tanPlaneVec f x y) (tanPlaneVec f x y) = 1 + x ^ 2 + y ^ 2 := by
  unfold dot3 tanPlaneVec add3 smul3 rHat eHat nHat dirOf
  linear_combination
    (Real.cos (deg2rad f.crval.2) ^ 2 + x ^ 2 +
        y ^ 2 * Real.sin (deg2rad f.crval.2) ^ 2 -
        2 * y * Real.sin (deg2rad f.crval.2) * Real.cos (deg2rad f.crval.2)) *
      Real.sin_sq_add_cos_sq (deg2rad f.crval.1) +
    (1 + y ^ 2) * Real.sin_sq_add_cos_sq (deg2rad f.crval.2)

/-- Reconstructing a unit vector from its sky angles gives it back. -/
theorem dirOf_anglesOf (x y z : ℝ) (hv : x ^ 2 + y ^ 2 + z ^ 2 = 1) :
    dirOf (anglesOf (x, y, z)).1 (anglesOf (x, y, z)).2 = (x, y, z) := by
  have hz2 : z ^ 2 ≤ 1 := by nlinarith [sq_nonneg x, sq_nonneg y]
  have hz1 : -1 ≤ z := by nlinarith
  have hz1' : z ≤ 1 := by nlinarith
  have hxy : 1 - z ^ 2 = x ^ 2 + y ^ 2 := by linarith
  have hsin : Real.sin (Real.arcsin z) = z := Real.sin_arcsin hz1 hz1'
  have hcos : Real.cos (Real.arcsin z) = Real.sqrt (x ^ 2 + y ^ 2) := by
    rw [Real.cos_arcsin, hxy]
  by_cases h0 : (⟨x, y⟩ : ℂ) = 0
  · have hx : x = 0 := by simpa using congrArg Complex.re h0
    have hy : y = 0 := by simpa using congrArg Complex.im h0
    subst hx; subst hy
    simp only [dirOf, anglesOf, Prod.ext_iff]
    rw [hsin, hcos]
    norm_num
  · have h0' : ¬(x = 0 ∧ y = 0) := by
      intro hh
      exact h0 (by simp [Complex.ext_iff, hh.1, hh.2])
    have hpos : 0 < x ^ 2 + y ^ 2 := by
      rcases not_and_or.mp h0' with hx | hy
      · have : 0 < x ^ 2 := by positivity
        nlinarith [sq_nonneg y]
      · have : 0 < y ^ 2 := by positivity
        nlinarith [sq_nonneg x]
    have hane : Real.sqrt (x ^ 2 + y ^ 2) ≠ 0 := Real.sqrt_ne_zero'.mpr hpos
    have habs : Complex.abs ⟨x, y⟩ = Real.sqrt (x ^ 2 + y ^ 2) := by
      rw [Complex.abs_apply, Complex.normSq_mk]
      congr 1
      ring
    have hcosarg : Real.cos (Complex.arg ⟨x, y⟩) = x / Real.sqrt (x ^ 2 + y ^ 2) := by
      rw [Complex.cos_arg h0, habs]
    have hsinarg : Real.sin (Complex.arg ⟨x, y⟩) = y / Real.sqrt (x ^ 2 + y ^ 2) := by
      rw [Complex.sin_arg, habs]
    simp only [dirOf, anglesOf, Prod.ext_iff]
    rw [hsin, hcos, hcosarg, hsinarg]
    refine ⟨?_, ?_, rfl⟩ <;> field_simp

/-- The inverse gnomonic projection undoes the gnomonic projection
everywhere on the tangent plane. -/
theorem projTanInv_projTan (f : CoordinateFrame) (t : ℝ × ℝ) :
    projTanInv f (projTan f t) = .ok t := by
  have key : ∀ x y : ℝ,
      projTanInv f
        (rad2deg (anglesOf (smul3 (1 / Real.sqrt (1 + x ^ 2 + y ^ 2)) (tanPlaneVec f x y))).1,
         rad2deg (anglesOf (smul3 (1 / Real.sqrt (1 + x ^ 2 + y ^ 2)) (tanPlaneVec f x y))).2)
        = .ok (rad2deg x, rad2deg y) := by
    intro x y
    have hposn : (0 : ℝ) < 1 + x ^ 2 + y ^ 2 := by positivity
    have hspos : 0 < Real.sqrt (1 + x ^ 2 + y ^ 2) := Real.sqrt_pos.mpr hposn
    have hs2 : Real.sqrt (1 + x ^ 2 + y ^ 2) ^ 2 = 1 + x ^ 2 + y ^ 2 :=
      Real.sq_sqrt (le_of_lt hposn)
    have hunit :
        (smul3 (1 / Real.sqrt (1 + x ^ 2 + y ^ 2)) (tanPlaneVec f x y)).1 ^ 2 +
        (smul3 (1 / Real.sqrt (1 + x ^ 2 + y ^ 2)) (tanPlaneVec f x y)).2.1 ^ 2 +
        (smul3 (1 / Real.sqrt (1 + x ^ 2 + y ^ 2)) (tanPlaneVec f x y)).2.2 ^ 2 = 1 := by
      rw [← dot3_self, dot3_smul3_left, dot3_smul3_right, tanPlaneVec_dot_self]
      field_simp
    have hdir :
        dirOf (deg2rad (rad2deg (anglesOf (smul3 (1 / Real.sqrt (1 + x ^ 2 + y ^ 2)) (tanPlaneVec f x y))).1))
          (deg2rad (rad2deg (anglesOf (smul3 (1 / Real.sqrt (1 + x ^ 2 + y ^ 2)) (tanPlaneVec f x y))).2))
          = smul3 (1 / Real.sqrt (1 + x ^ 2 + y ^ 2)) (tanPlaneVec f x y) := by
      rw [deg2rad_rad2deg, deg2rad_rad2deg]
      exact dirOf_anglesOf _ _ _ hunit
    have hvr : dot3 (smul3 (1 / Real.sqrt (1 + x ^ 2 + y ^ 2)) (tanPlaneVec f x y)) (rHat f)
        = 1 / Real.sqrt (1 + x ^ 2 + y ^ 2) := by
      rw [dot3_smul3_left, tanPlaneVec_dot_rHat]; ring
    have hve : dot3 (smul3 (1 / Real.sqrt (1 + x ^ 2 + y ^ 2)) (tanPlaneVec f x y)) (eHat f)
        = (1 / Real.sqrt (1 + x ^ 2 + y ^ 2)) * x := by
      rw [dot3_smul3_left, tanPlaneVec_dot_eHat]
    have hvn : dot3 (smul3 (1 / Real.sqrt (1 + x ^ 2 + y ^ 2)) (tanPlaneVec f x y)) (nHat f)
        = (1 / Real.sqrt (1 + x ^ 2 + y ^ 2)) * y := by
      rw [dot3_smul3_left, tanPlaneVec_dot_nHat]
    have hmupos : 0 < 1 / Real.sqrt (1 + x ^ 2 + y ^ 2) := by positivity
    simp only [projTanInv]
    rw [hdir, hvr, hve, hvn, if_neg (not_le.mpr hmupos)]
    have hxq : 1 / Real.sqrt (1 + x ^ 2 + y ^ 2) * x / (1 / Real.sqrt (1 + x ^ 2 + y ^ 2)) = x := by
      field_simp
    have hyq : 1 / Real.sqrt (1 + x ^ 2 + y ^ 2) * y / (1 / Real.sqrt (1 + x ^ 2 + y ^ 2)) = y := by
      field_simp
    rw [hxq, hyq]
  have := key (deg2rad t.1) (deg2rad t.2)
  simp only [projTan]
  rw [this, rad2deg_deg2rad, rad2deg_deg2rad]

/-- The projection inverse undoes the projection, for every projection
kind: every point of the intermediate plane is strictly inside the
region where the projection is well-defined and invertible. -/
theorem projInv_proj (f : CoordinateFrame) (t : ℝ × ℝ) :
    projInv f (proj f t) = .ok t := by
  cases hk : f.projKind
  · simp only [proj, projInv, hk, projTanInv_projTan]
  · simp only [proj, projInv, hk, add_sub_cancel_left]

/-- Modelled from the spec: forward transform of a pixel position to
intermediate coordinates: subtract reference pixel and origin offset,
apply the linear matrix, and add the distortion correction evaluated at
pixel offsets (SIP) or intermediate coordinates (TPV). -/
noncomputable def fwdInt (f : CoordinateFrame) (o : ℕ) (p : ℝ × ℝ) : ℝ × ℝ :=
  let u : ℝ × ℝ := (p.1 - f.crpix.1 - o, p.2 - f.crpix.2 - o)
  let lu := f.cd.apply u
  match f.distortion with
  | none => lu
  | some d =>
    match d.convention with
    | .sip => lu + d.forward.eval u
    | .tpv => lu + d.forward.eval lu

/-- Modelled from the spec: `pixel_to_sky(frame, positions, origin)`;
fails with `InvalidFrame` on a singular linear transform. -/
noncomputable def pixel_to_sky (f : CoordinateFrame) (ps : List (ℝ × ℝ))
    (o : ℕ) : Except TError (List (ℝ × ℝ)) :=
  if f.cd.det = 0 then .error .invalidFrame
  else .ok (ps.map (fun p => proj f (fwdInt f o p)))

/-- Single-position wrapper of `pixel_to_sky`. -/
noncomputable def pixel_to_sky1 (f : CoordinateFrame) (p : ℝ × ℝ) (o : ℕ) :
    Except TError (ℝ × ℝ) :=
  if f.cd.det = 0 then .error .invalidFrame
  else .ok (proj f (fwdInt f o p))

/-- Distortion-free linear/projective inverse: pixel position of an
intermediate coordinate, ignoring distortion.  This is also the starting
guess of the iterative inverse. -/
noncomputable def linInv (f : CoordinateFrame) (o : ℕ) (t : ℝ × ℝ) : ℝ × ℝ :=
  let u := f.cd.applyInv t
  (u.1 + f.crpix.1 + o, u.2 + f.crpix.2 + o)

/-- Closed-form inverse using an explicit inverse distortion polynomial:
single pass, no iteration. -/
noncomputable def closedInv (f : CoordinateFrame) (o : ℕ) (dinv : PolyPair)
    (t : ℝ × ℝ) : ℝ × ℝ :=
  let u := f.cd.applyInv t + dinv.eval t
  (u.1 + f.crpix.1 + o, u.2 + f.crpix.2 + o)

/-- Residual of a (target, guess) pair, in pixel units via the local
linear approximation: inverse linear transform of the difference between
the forward image of the guess and the target intermediate coordinates. -/
noncomputable def residualPix (f : CoordinateFrame) (o : ℕ)
    (tg : (ℝ × ℝ) × (ℝ × ℝ)) : ℝ × ℝ :=
  f.cd.applyInv (fwdInt f o tg.2 - tg.1)

/-- Max-norm of a 2-vector of pixel residuals. -/
noncomputable def maxAbs2 (v : ℝ × ℝ) : ℝ := max |v.1| |v.2|

/-- The fixed convergence tolerance of the iterative inverse:
1e-6 pixels. -/
noncomputable def tolDefault : ℝ := 1 / 1000000

/-- The bounded number of iterations of the iterative inverse. -/
def maxIterDefault : ℕ := 20

/-- Maximum pixel residual across all requested positions of a batch of
(target, guess) pairs. -/
noncomputable def maxResidual (f : CoordinateFrame) (o : ℕ)
    (l : List ((ℝ × ℝ) × (ℝ × ℝ))) : ℝ :=
  (l.map (fun tg => maxAbs2 (residualPix f o tg))).foldr max 0

/-- Modelled from the spec: the iterative inverse loop.  Starting from the
given guesses, repeatedly compute the batch residual; converge when the
maximum pixel residual drops below the tolerance, otherwise update every
guess by subtracting its residual; fail with `InverseDidNotConverge` when
the iteration cap is exhausted.  Returns the number of update iterations
performed together with the result. -/
noncomputable def iterInv (f : CoordinateFrame) (o : ℕ) :
    ℕ → List ((ℝ × ℝ) × (ℝ × ℝ)) → ℕ × Except TError (List (ℝ × ℝ))
  | 0, _ => (0, .error .inverseDidNotConverge)
  | fuel + 1, l =>
    if maxResidual f o l < tolDefault then (0, .ok (l.map (fun tg => tg.2)))
    else
      let next := iterInv f o fuel (l.map (fun tg => (tg.1, tg.2 - residualPix f o tg)))
      (next.1 + 1, next.2)

/-- Reattach per-position results of the iterative inverse to the
per-position projection outcomes, keeping projection failures in place. -/
def reassemble : List (Except TError (ℝ × ℝ)) → List (ℝ × ℝ) →
    List (Except TError (ℝ × ℝ))
  | [], _ => []
  | .error e :: ts, gs => .error e :: reassemble ts gs
  | .ok _ :: _, [] => []
  | .ok _ :: ts, g :: gs => .ok g :: reassemble ts gs

/-- Modelled from the spec: `sky_to_pixel(frame, positions, origin)`.
Closed form when an explicit inverse distortion polynomial is present (or
no distortion at all), iterative otherwise; the iteration cap is
batch-wide, so a convergence failure fails the whole batch. -/
noncomputable def sky_to_pixel (f : CoordinateFrame) (ss : List (ℝ × ℝ))
    (o : ℕ) : Except TError (List (Except TError (ℝ × ℝ))) :=
  if f.cd.det = 0 then .error .invalidFrame
  else
    let ts := ss.map (projInv f)
    match f.distortion with
    | none => .ok (ts.map (fun te => te.map (linInv f o)))
    | some d =>
      match d.inverse with
      | some dinv => .ok (ts.map (fun te => te.map (closedInv f o dinv)))
      | none =>
        let oks := ts.filterMap (fun te => te.toOption)
        let start := oks.map (fun t => (t, linInv f o t))
        match (iterInv f o maxIterDefault start).2 with
        | .ok gs => .ok (reassemble ts gs)
        | .error e => .error e

/-- Modelled from the spec: `strip_distortion(frame)` returns a copy of
the frame with the distortion polynomial removed. -/
def strip_distortion (f : CoordinateFrame) : CoordinateFrame :=
  { f with distortion := none }

/-- Core transform to intermediate coordinates: the linear transform plus
the distortion when and only when the frame declares it in the TPV
convention (TPV distortion is carried by the core WCS keywords, so the
core transform already handles it). -/
noncomputable def coreInt (f : CoordinateFrame) (o : ℕ) (p : ℝ × ℝ) : ℝ × ℝ :=
  let u : ℝ × ℝ := (p.1 - f.crpix.1 - o, p.2 - f.crpix.2 - o)
  let lu := f.cd.apply u
  match f.distortion with
  | none => lu
  | some d =>
    match d.convention with
    | .sip => lu
    | .tpv => lu + d.forward.eval lu

/-- The core-only transform of the notebook (`wcs_pix2world`): omits the
SIP distortion layer but, being backed by the core WCS keywords, still
applies a TPV distortion. -/
noncomputable def wcs_pix2world (f : CoordinateFrame) (p : ℝ × ℝ) (o : ℕ) :
    Except TError (ℝ × ℝ) :=
  if f.cd.det = 0 then .error .invalidFrame
  else .ok (proj f (coreInt f o p))

/-- The full forward transform of the notebook (`all_pix2world`):
distortion included, whatever its convention. -/
noncomputable def all_pix2world (f : CoordinateFrame) (p : ℝ × ℝ) (o : ℕ) :
    Except TError (ℝ × ℝ) :=
  pixel_to_sky1 f p o

theorem iterInv_count_le (f : CoordinateFrame) (o : ℕ) :
    ∀ (fuel : ℕ) (l : List ((ℝ × ℝ) × (ℝ × ℝ))), (iterInv f o fuel l).1 ≤ fuel := by
  intro fuel
  induction fuel with
  | zero => intro l; simp [iterInv]
  | succ n ih =>
    intro l
    by_cases hc : maxResidual f o l < tolDefault
    · simp [iterInv, hc]
    · simpa [iterInv, hc] using
        Nat.add_le_add_right (ih (l.map (fun tg => (tg.1, tg.2 - residualPix f o tg)))) 1

theorem iterInv_ok (f : CoordinateFrame) (o : ℕ) :
    ∀ (fuel : ℕ) (l : List ((ℝ × ℝ) × (ℝ × ℝ))) (gs : List (ℝ × ℝ)),
      (iterInv f o fuel l).2 = .ok gs →
      ∃ l2 : List ((ℝ × ℝ) × (ℝ × ℝ)), gs = l2.map (fun tg => tg.2) ∧
        l2.map (fun tg => tg.1) = l.map (fun tg => tg.1) ∧
        maxResidual f o l2 < tolDefault := by
  intro fuel
  induction fuel with
  | zero => intro l gs h; simp [iterInv] at h
  | succ n ih =>
    intro l gs h
    by_cases hc : maxResidual f o l < tolDefault
    · refine ⟨l, ?_, rfl, hc⟩
      simp only [iterInv, if_pos hc] at h
      exact (Except.ok.injEq _ _ ▸ h).symm
    · simp only [iterInv, if_neg hc] at h
      obtain ⟨l2, h1, h2, h3⟩ := ih _ _ h
      refine ⟨l2, h1, ?_, h3⟩
      rw [h2, List.map_map]
      rfl

theorem iterInv_error (f : CoordinateFrame) (o : ℕ) :
    ∀ (fuel : ℕ) (l : List ((ℝ × ℝ) × (ℝ × ℝ))) (e : TError),
      (iterInv f o fuel l).2 = .error e → e = .inverseDidNotConverge := by
  intro fuel
  induction fuel with
  | zero =>
    intro l e h
    simp only [iterInv] at h
    exact (Except.error.injEq _ _ ▸ h).symm
  | succ n ih =>
    intro l e h
    by_cases hc : maxResidual f o l < tolDefault
    · simp [iterInv, hc] at h
    · simp only [iterInv, if_neg hc] at h
      exact ih _ _ h

theorem maxAbs2_nonneg (v : ℝ × ℝ) : 0 ≤ maxAbs2 v :=
  le_trans (abs_nonneg _) (le_max_left _ _)

theorem maxResidual_singleton (f : CoordinateFrame) (o : ℕ)
    (tg : (ℝ × ℝ) × (ℝ × ℝ)) :
    maxResidual f o [tg] = maxAbs2 (residualPix f o tg) := by
  unfold maxResidual
  simp [max_eq_left (maxAbs2_nonneg _)]

theorem sky_to_pixel_iter_singleton (f : CoordinateFrame) (o : ℕ) (t : ℝ × ℝ)
    (d : Distortion) (hf : ¬ f.cd.det = 0) (hd : f.distortion = some d)
    (hi : d.inverse = none) (q : ℝ × ℝ)
    (h : sky_to_pixel f [proj f t] o = .ok [.ok q]) :
    maxAbs2 (residualPix f o (t, q)) < tolDefault := by
  simp only [sky_to_pixel, if_neg hf, hd, hi, List.map_cons, List.map_nil,
    projInv_proj, List.filterMap_cons, List.filterMap_nil, Except.toOption] at h
  cases hres : (iterInv f o maxIterDefault [(t, linInv f o t)]).2 with
  | error e => rw [hres] at h; exact absurd h (by simp)
  | ok gs =>
    rw [hres] at h
    obtain ⟨l2, hgs, hts, hr⟩ := iterInv_ok f o _ _ _ hres
    simp only [List.map_cons, List.map_nil] at hts
    match l2, hts with
    | [tg], hts =>
      have ht1 : tg.1 = t := by
        have := List.head_eq_of_cons_eq hts
        exact this
      simp only [List.map_cons, List.map_nil] at hgs
      subst hgs
      simp only [reassemble, Except.ok.injEq] at h
      have hq : tg.2 = q := by
        have hh := List.head_eq_of_cons_eq h
        exact (Except.ok.injEq _ _ ▸ hh)
      have : (t, q) = tg := by
        rw [← ht1, ← hq]
      rw [this, ← maxResidual_singleton]
      exact hr

theorem linInv_fwdInt_nodist (f : CoordinateFrame) (o : ℕ) (p : ℝ × ℝ)
    (hf : ¬ f.cd.det = 0) (hd : f.distortion = none) :
    linInv f o (fwdInt f o p) = p := by
  simp only [linInv, fwdInt, hd]
  rw [Matrix2.applyInv_apply f.cd hf]
  simp only [Prod.ext_iff]
  constructor <;> ring

/-- C1 (amended): round trip of the forward and inverse transforms at a
valid non-degenerate frame and any pixel position (every point of the
intermediate plane being strictly inside the projection's well-defined
region).  (i) With no distortion the round trip returns exactly p.
(ii) On the closed-form path the round trip returns exactly p provided
the declared explicit inverse distortion polynomial actually inverts the
forward transform at p.  (iii) On the iterative path a successful round
trip returns a position whose maximum pixel residual against p's
intermediate coordinates (the quantity the 1e-6 tolerance bounds) is
below the tolerance; as the counterexample shows, the result need not be
within 1e-6 of p itself. -/
theorem C1_roundtrip_amended (f : CoordinateFrame) (p : ℝ × ℝ) (o : ℕ)
    (s : ℝ × ℝ) (hf : f.valid) (hs : pixel_to_sky f [p] o = .ok [s]) :
    (f.distortion = none → sky_to_pixel f [s] o = .ok [.ok p]) ∧
    (∀ d dinv, f.distortion = some d → d.inverse = some dinv →
      closedInv f o dinv (fwdInt f o p) = p →
      sky_to_pixel f [s] o = .ok [.ok p]) ∧
    (∀ d, f.distortion = some d → d.inverse = none →
      ∀ q, sky_to_pixel f [s] o = .ok [.ok q] →
        maxAbs2 (residualPix f o (fwdInt f o p, q)) < tolDefault) := by
  have hf' : ¬ f.cd.det = 0 := hf
  have hs' : s = proj f (fwdInt f o p) := by
    simp only [pixel_to_sky, if_neg hf', List.map_cons, List.map_nil,
      Except.ok.injEq] at hs
    exact (List.head_eq_of_cons_eq hs).symm
  subst hs'
  refine ⟨?_, ?_, ?_⟩
  · intro hd
    simp only [sky_to_pixel, if_neg hf', hd, List.map_cons, List.map_nil,
      projInv_proj, Except.map]
    rw [linInv_fwdInt_nodist f o p hf' hd]
  · intro d dinv hd hdi hcl
    simp only [sky_to_pixel, if_neg hf', hd, hdi, List.map_cons, List.map_nil,
      projInv_proj, Except.map]
    rw [hcl]
  · intro d hd hdi q hq
    exact sky_to_pixel_iter_singleton f o (fwdInt f o p) d hf' hd hdi q hq

/-- The SIP distortion of the counterexample frame: its forward x
correction is the monomial -u, which collapses the forward transform. -/
noncomputable def cexDist : Distortion :=
  ⟨.sip, ⟨⟨[((1, 0), -1)]⟩, ⟨[]⟩⟩, none⟩

/-- Counterexample frame for the round-trip claim: identity linear
transform, plate projection, and a forward-only SIP distortion whose
correction cancels the x coordinate, so the forward transform is not
injective and the iterative inverse converges to the wrong pixel. -/
noncomputable def cexFrame : CoordinateFrame :=
  { crpix := (0, 0), crval := (0, 0), cd := ⟨1, 0, 0, 1⟩,
    projKind := .plate, distortion := some cexDist }

theorem cexFrame_det : ¬ cexFrame.cd.det = 0 := by
  norm_num [cexFrame, Matrix2.det]

theorem cexFrame_fwdInt : fwdInt cexFrame 0 (1, 0) = (0, 0) := by
  simp only [fwdInt, cexFrame, cexDist, Matrix2.apply, PolyPair.eval, Poly2.eval,
    List.map_cons, List.map_nil, List.sum_cons, List.sum_nil, Prod.mk_add_mk]
  norm_num

theorem cexFrame_fwdInt0 : fwdInt cexFrame 0 (0, 0) = (0, 0) := by
  simp only [fwdInt, cexFrame, cexDist, Matrix2.apply, PolyPair.eval, Poly2.eval,
    List.map_cons, List.map_nil, List.sum_cons, List.sum_nil, Prod.mk_add_mk]
  norm_num

theorem cexFrame_linInv : linInv cexFrame 0 (0, 0) = (0, 0) := by
  simp only [linInv, cexFrame, Matrix2.applyInv, Matrix2.det]
  norm_num

theorem cexFrame_res0 : maxResidual cexFrame 0 [((0, 0), (0, 0))] < tolDefault := by
  rw [maxResidual_singleton]
  simp only [residualPix, cexFrame_fwdInt0]
  simp only [cexFrame, Matrix2.applyInv, Matrix2.det, maxAbs2, tolDefault,
    Prod.mk_sub_mk]
  norm_num

theorem iterInv_succ_pos (f : CoordinateFrame) (o : ℕ) (fuel : ℕ)
    (l : List ((ℝ × ℝ) × (ℝ × ℝ))) (h : maxResidual f o l < tolDefault) :
    iterInv f o (fuel + 1) l = (0, .ok (l.map (fun tg => tg.2))) := by
  simp [iterInv, h]

theorem cexFrame_iter :
    (iterInv cexFrame 0 maxIterDefault [((0, 0), (0, 0))]).2 = .ok [(0, 0)] := by
  rw [show maxIterDefault = 19 + 1 from rfl,
    iterInv_succ_pos cexFrame 0 19 _ cexFrame_res0]
  rfl

/-- C1 counterexample: at the counterexample frame and pixel (1, 0) with
origin 0, the forward transform succeeds, the inverse transform succeeds
(the iteration converges immediately), yet the returned pixel (0, 0) is
a whole pixel away from the starting position — far beyond the 1e-6
tolerance.  The claim as stated is therefore false. -/
theorem C1_roundtrip_cex :
    pixel_to_sky cexFrame [(1, 0)] 0 = .ok [(0, 0)] ∧
    sky_to_pixel cexFrame [(0, 0)] 0 = .ok [.ok (0, 0)] ∧
    ¬ maxAbs2 (((0 : ℝ), (0 : ℝ)) - (1, 0)) ≤ tolDefault := by
  refine ⟨?_, ?_, ?_⟩
  · simp only [pixel_to_sky, if_neg cexFrame_det, List.map_cons, List.map_nil,
      cexFrame_fwdInt]
    simp only [proj, cexFrame]
    norm_num
  · simp only [sky_to_pixel, if_neg cexFrame_det, List.map_cons, List.map_nil,
      show cexFrame.distortion = some cexDist from rfl,
      show cexDist.inverse = none from rfl]
    have hproj : projInv cexFrame ((0 : ℝ), (0 : ℝ)) = .ok (0, 0) := by
      simp only [projInv, cexFrame]
      norm_num
    simp only [hproj, List.filterMap_cons, List.filterMap_nil, Except.toOption,
      List.map_cons, List.map_nil, cexFrame_linInv, cexFrame_iter, reassemble]
  · simp only [maxAbs2, tolDefault, Prod.mk_sub_mk]
    norm_num

/-- The SIP distortion of the witness frame: a constant forward shift by
(1/2, 0) together with the exact explicit inverse shift. -/
noncomputable def witDist : Distortion :=
  ⟨.sip, ⟨⟨[((0, 0), 1 / 2)]⟩, ⟨[]⟩⟩, some ⟨⟨[((0, 0), -(1 / 2))]⟩, ⟨[]⟩⟩⟩

/-- Witness frame for the amended round-trip claim: identity linear
transform, plate projection, constant distortion with its exact declared
inverse. -/
noncomputable def witFrame : CoordinateFrame :=
  { crpix := (0, 0), crval := (0, 0), cd := ⟨1, 0, 0, 1⟩,
    projKind := .plate, distortion := some witDist }

theorem witFrame_det : ¬ witFrame.cd.det = 0 := by
  norm_num [witFrame, Matrix2.det]

theorem witFrame_fwdInt : fwdInt witFrame 0 (0, 0) = (1 / 2, 0) := by
  simp only [fwdInt, witFrame, witDist, Matrix2.apply, PolyPair.eval, Poly2.eval,
    List.map_cons, List.map_nil, List.sum_cons, List.sum_nil, Prod.mk_add_mk]
  norm_num

theorem witFrame_closedInv :
    closedInv witFrame 0 ⟨⟨[((0, 0), -(1 / 2))]⟩, ⟨[]⟩⟩ (fwdInt witFrame 0 (0, 0)) = (0, 0) := by
  rw [witFrame_fwdInt]
  simp only [closedInv, witFrame, Matrix2.applyInv, Matrix2.det, PolyPair.eval,
    Poly2.eval, List.map_cons, List.map_nil, List.sum_cons, List.sum_nil,
    Prod.mk_add_mk]
  norm_num

theorem witFrame_p2s : pixel_to_sky witFrame [(0, 0)] 0 = .ok [(1 / 2, 0)] := by
  simp only [pixel_to_sky, if_neg witFrame_det, List.map_cons, List.map_nil,
    witFrame_fwdInt]
  simp only [proj, witFrame]
  norm_num

/-- Witness for the amended round-trip theorem: the closed-form path of
the witness frame recovers the starting pixel exactly. -/
theorem C1_roundtrip_witness :
    sky_to_pixel witFrame [(1 / 2, 0)] 0 = .ok [.ok (0, 0)] :=
  (C1_roundtrip_amended witFrame (0, 0) 0 (1 / 2, 0) witFrame_det witFrame_p2s).2.1
    witDist ⟨⟨[((0, 0), -(1 / 2))]⟩, ⟨[]⟩⟩ rfl rfl witFrame_closedInv

/-- C2: the iterative inverse with the default cap and tolerance, run on
any batch of (target, guess) pairs, performs at most `maxIterDefault`
update iterations; if it returns a result it is the batch of guesses of a
state whose maximum pixel residual across all requested positions is
below the tolerance (same targets as requested); if it fails, the error
is exactly `InverseDidNotConverge`. -/
theorem C2_iterative_inverse_terminates (f : CoordinateFrame) (o : ℕ)
    (l : List ((ℝ × ℝ) × (ℝ × ℝ))) :
    (iterInv f o maxIterDefault l).1 ≤ maxIterDefault ∧
    (∀ gs, (iterInv f o maxIterDefault l).2 = .ok gs →
      ∃ l2 : List ((ℝ × ℝ) × (ℝ × ℝ)), gs = l2.map (fun tg => tg.2) ∧
        l2.map (fun tg => tg.1) = l.map (fun tg => tg.1) ∧
        maxResidual f o l2 < tolDefault) ∧
    (∀ e, (iterInv f o maxIterDefault l).2 = .error e →
      e = .inverseDidNotConverge) :=
  ⟨iterInv_count_le f o maxIterDefault l,
   fun gs h => iterInv_ok f o maxIterDefault l gs h,
   fun e h => iterInv_error f o maxIterDefault l e h⟩

/-- C7: `strip_distortion` is idempotent, removes the distortion
polynomial, and leaves every other frame field unchanged. -/
theorem C7_strip_distortion_idempotent (f : CoordinateFrame) :
    strip_distortion (strip_distortion f) = strip_distortion f ∧
    (strip_distortion f).distortion = none ∧
    (strip_distortion f).crpix = f.crpix ∧
    (strip_distortion f).crval = f.crval ∧
    (strip_distortion f).cd = f.cd ∧
    (strip_distortion f).projKind = f.projKind :=
  ⟨rfl, rfl, rfl, rfl, rfl, rfl⟩

/-- C9: on a frame whose distortion is declared in the TPV convention,
the full forward transform (`all_pix2world`) agrees with the core
transform (`wcs_pix2world`) at every pixel position: the TPV distortion
is handled inside the core transform, so the two paths coincide. -/
theorem C9_tpv_paths_equivalent (f : CoordinateFrame) (p : ℝ × ℝ) (o : ℕ)
    (d : Distortion) (hd : f.distortion = some d)
    (hc : d.convention = .tpv) :
    all_pix2world f p o = wcs_pix2world f p o := by
  simp only [all_pix2world, pixel_to_sky1, wcs_pix2world, fwdInt, coreInt, hd, hc]

/-- A concrete TPV frame for the C9 witness. -/
noncomputable def tpvFrame : CoordinateFrame :=
  { crpix := (100, 100), crval := (70, 20), cd := ⟨2, 0, 0, 2⟩,
    projKind := .tangent,
    distortion := some ⟨.tpv, ⟨⟨[((2, 0), 1 / 100)]⟩, ⟨[((0, 2), 1 / 100)]⟩⟩, none⟩ }

/-- Witness for the TPV path-equivalence theorem at a concrete frame and
pixel position. -/
theorem C9_tpv_paths_witness :
    all_pix2world tpvFrame (500, 1000) 1 = wcs_pix2world tpvFrame (500, 1000) 1 :=
  C9_tpv_paths_equivalent tpvFrame (500, 1000) 1 _ rfl rfl

abbrev Pix2 := ℕ × ℕ

abbrev GridQ := List (List ℚ)

abbrev GridN := List (List ℕ)

/-- Value of an intensity grid at a coordinate (zero outside). -/
def gval (g : GridQ) (p : Pix2) : ℚ := (g.getD p.1 []).getD p.2 0

/-- Value of a label grid at a coordinate (zero outside). -/
def nval (g : GridN) (p : Pix2) : ℕ := (g.getD p.1 []).getD p.2 0

/-- Height of a grid. -/
def gridH (g : GridQ) : ℕ := g.length

/-- Width of a grid (length of its first row; rows of a rectangular
grid all share it). -/
def gridW (g : GridQ) : ℕ := (g.getD 0 []).length

/-- All coordinates of an h-by-w grid in row-major order. -/
def allCoords (h w : ℕ) : List Pix2 :=
  (List.range h).flatMap (fun r => (List.range w).map (fun c => (r, c)))

/-- Modelled from the spec: 4- or 8-connectivity for grouping pixels. -/
inductive Connectivity where
  | four
  | eight
deriving DecidableEq, Repr

/-- Distance of two naturals. -/
def natDist (a b : ℕ) : ℕ := max a b - min a b

/-- Adjacency of two grid coordinates: 4-connected pixels touch along
edges, 8-connected pixels touch along edges or corners. -/
def adjacent (conn : Connectivity) (p q : Pix2) : Bool :=
  match conn with
  | .four => decide (p ≠ q ∧ natDist p.1 q.1 + natDist p.2 q.2 ≤ 1)
  | .eight => decide (p ≠ q ∧ natDist p.1 q.1 ≤ 1 ∧ natDist p.2 q.2 ≤ 1)

/-- Flood fill with explicit fuel: grow the component from the `todo`
frontier, moving the adjacent pixels of `rem` onto the frontier.  With
fuel at least `todo.length + rem.length` the fuel never runs out. -/
def flood (adj : Pix2 → Pix2 → Bool) :
    ℕ → List Pix2 → List Pix2 → List Pix2 → List Pix2 × List Pix2
  | 0, todo, rem, acc => (acc ++ todo, rem)
  | _ + 1, [], rem, acc => (acc, rem)
  | fuel + 1, p :: todo, rem, acc =>
    let pr := rem.partition (fun q => adj p q)
    flood adj fuel (todo ++ pr.1) pr.2 (acc ++ [p])

/-- Connected components of a pixel list, seeded in list order, so
components come out in row-major first-pixel-encountered order. -/
def components (adj : Pix2 → Pix2 → Bool) : ℕ → List Pix2 → List (List Pix2)
  | 0, _ => []
  | _ + 1, [] => []
  | fuel + 1, p :: rest =>
    let fr := flood adj (rest.length + 1) [p] rest []
    fr.1 :: components adj fuel fr.2

/-- Connected components with adequate fuel. -/
def connComponents (adj : Pix2 → Pix2 → Bool) (l : List Pix2) :
    List (List Pix2) :=
  components adj l.length l

/-- Grid value at signed coordinates, zero-padded. -/
def gvalZ (g : GridQ) (r c : ℤ) : ℚ :=
  if r < 0 ∨ c < 0 then 0 else gval g (r.toNat, c.toNat)

/-- Discrete 2-D convolution of a data grid with a kernel, zero-padded,
kernel centered. -/
def convolve (data k : GridQ) : GridQ :=
  (List.range (gridH data)).map (fun r =>
    (List.range (gridW data)).map (fun c =>
      ((List.range (gridH k)).flatMap (fun i =>
        (List.range (gridW k)).map (fun j =>
          gval k (i, j) *
            gvalZ data ((r : ℤ) + i - (gridH k) / 2) ((c : ℤ) + j - (gridW k) / 2)))).sum))

/-- Smooth the data with the optional filter kernel. -/
def smoothOpt (kernel : Option GridQ) (d : GridQ) : GridQ :=
  match kernel with
  | none => d
  | some k => convolve d k

/-- Label of a coordinate given the component list: one plus the index of
the first component containing it, zero (background) if none does. -/
def labelOf (cs : List (List Pix2)) (p : Pix2) : ℕ :=
  match cs.findIdx? (fun comp => decide (p ∈ comp)) with
  | some i => i + 1
  | none => 0

/-- Paint the component list onto an h-by-w zero grid, the i-th
component with label i+1. -/
def paint (h w : ℕ) (cs : List (List Pix2)) : GridN :=
  (List.range h).map (fun r => (List.range w).map (fun c => labelOf cs (r, c)))

/-- Positive labels occurring in a label grid, with multiplicity, in
row-major order. -/
def positiveList (g : GridN) : List ℕ := g.flatten.filter (fun v => decide (0 < v))

/-- Helper of `firsts`: keep the elements not seen before. -/
def firstsAux : List ℕ → List ℕ → List ℕ
  | [], _ => []
  | a :: l, seen =>
    if a ∈ seen then firstsAux l seen else a :: firstsAux l (a :: seen)

/-- First occurrences of a list's elements, in order. -/
def firsts (l : List ℕ) : List ℕ := firstsAux l []

/-- Relabelling map: background stays zero, the i-th distinct positive
label (in first-occurrence order) becomes i+1. -/
def relabelFun (fs : List ℕ) (v : ℕ) : ℕ :=
  if v = 0 then 0 else fs.indexOf v + 1

/-- Modelled from the spec: the relabeling step that makes labels
contiguous starting at 1, in first-occurrence (row-major) order. -/
def relabel (g : GridN) : GridN :=
  g.map (List.map (relabelFun (firsts (positiveList g))))

/-- The all-zero h-by-w label grid (the `EmptyDetection` value). -/
def zeroGrid (h w : ℕ) : GridN :=
  (List.range h).map (fun _ => (List.range w).map (fun _ => 0))

/-- Modelled from the spec: `detect(data, threshold_map, min_pixels,
connectivity, filter_kernel?)`: threshold the (optionally smoothed) data
against the threshold map with >=, group with connected components,
discard components smaller than `min_pixels`, label in deterministic
row-major first-pixel order.  When nothing survives this returns the
all-zero map (`EmptyDetection`), an ordinary value, not an error. -/
def detect (data thr : GridQ) (minPix : ℕ) (conn : Connectivity)
    (kernel : Option GridQ) : GridN :=
  let sd := smoothOpt kernel data
  let h := gridH data
  let w := gridW data
  let cand := (allCoords h w).filter (fun p => decide (gval thr p ≤ gval sd p))
  let comps := connComponents (adjacent conn) cand
  let survivors := comps.filter (fun c => decide (minPix ≤ c.length))
  relabel (paint h w survivors)

/-- Coordinates of a label grid carrying the given label. -/
def coordsWithLabel (segm : GridN) (l : ℕ) : List Pix2 :=
  (allCoords segm.length (segm.getD 0 []).length).filter
    (fun p => decide (nval segm p = l))

/-- Integrated flux of a pixel set. -/
def fluxOf (sd : GridQ) (c : List Pix2) : ℚ := (c.map (gval sd)).sum

/-- Minimum of a rational list (zero for the empty list). -/
def minQ : List ℚ → ℚ
  | [] => 0
  | a :: l => l.foldl min a

/-- Maximum of a rational list (zero for the empty list). -/
def maxQ : List ℚ → ℚ
  | [] => 0
  | a :: l => l.foldl max a

/-- Next pixel the watershed flooding assigns: among the unassigned
pixels adjacent to some region, the one of highest data value (ties to
the earlier pixel), together with the first region it touches. -/
def pickNext (sd : GridQ) (conn : Connectivity) (un : List Pix2)
    (regs : List (List Pix2)) : Option (Pix2 × ℕ) :=
  let cands := un.filterMap (fun p =>
    match regs.findIdx? (fun reg => reg.any (fun q => adjacent conn p q)) with
    | some i => some (p, i)
    | none => none)
  cands.foldl (fun best c =>
    match best with
    | none => some c
    | some b => if gval sd b.1 < gval sd c.1 then some c else best) none

/-- Watershed flooding loop: repeatedly assign the next pixel to its
region. -/
def wsLoop (sd : GridQ) (conn : Connectivity) :
    ℕ → List Pix2 → List (List Pix2) → List (List Pix2) × List Pix2
  | 0, un, regs => (regs, un)
  | fuel + 1, un, regs =>
    match pickNext sd conn un regs with
    | none => (regs, un)
    | some (p, i) => wsLoop sd conn fuel (un.erase p) (regs.set i (p :: regs.getD i []))

/-- Modelled from the spec: watershed flooding seeded at the surviving
peaks, assigning every pixel of the footprint to exactly one child;
pixels the flooding cannot reach join the first child. -/
def watershed (sd : GridQ) (conn : Connectivity) (fp : List Pix2)
    (seeds : List (List Pix2)) : List (List Pix2) :=
  let un := fp.filter (fun p => decide (¬ seeds.any (fun s => decide (p ∈ s))))
  let res := wsLoop sd conn un.length un seeds
  match res.1 with
  | [] => [fp]
  | r0 :: rest => (res.2 ++ r0) :: rest

/-- Modelled from the spec: deblending of one segment.  The spec asks for
`n_levels` logarithmically-spaced thresholds between the segment's
threshold floor and its peak; logarithmic spacing needs real
exponentials, so the level generator is a parameter (covering the
logarithmic choice among others).  A degenerate segment (peak at or
below the floor) is a per-segment `DeblendFailed`: it is kept unchanged
and processing continues.  At each level the connected components of the
above-level footprint pixels that carry `min_pixels` pixels and at least
`contrast` fraction of the parent's total flux survive (the others merge
back into the parent); the last level with at least two survivors seeds
the watershed. -/
def deblendLabel (levelsOf : ℕ → ℚ → ℚ → List ℚ) (sd : GridQ)
    (conn : Connectivity) (minPix nlev : ℕ) (contrast : ℚ)
    (fp : List Pix2) : List (List Pix2) :=
  if fp.isEmpty then []
  else
    let vals := fp.map (gval sd)
    let fl := minQ vals
    let peak := maxQ vals
    if peak ≤ fl then [fp]
    else
      let total := vals.sum
      let splits := (levelsOf nlev fl peak).filterMap (fun lv =>
        let comps := (connComponents (adjacent conn)
            (fp.filter (fun p => decide (lv ≤ gval sd p)))).filter
          (fun c => decide (minPix ≤ c.length) && decide (contrast * total ≤ fluxOf sd c))
        if 2 ≤ comps.length then some comps else none)
      match splits.getLast? with
      | none => [fp]
      | some seeds => watershed sd conn fp seeds

/-- Modelled from the spec: `deblend(data, segmentation, min_pixels,
n_levels, contrast, filter_kernel?)`: deblend every segment independently
and renumber all labels globally (contiguous from 1) afterwards. -/
def deblend (levelsOf : ℕ → ℚ → ℚ → List ℚ) (data : GridQ) (segm : GridN)
    (minPix nlev : ℕ) (contrast : ℚ) (kernel : Option GridQ) : GridN :=
  let sd := smoothOpt kernel data
  let labs := firsts (positiveList segm)
  let children := labs.flatMap
    (fun l => deblendLabel levelsOf sd .eight minPix nlev contrast (coordsWithLabel segm l))
  relabel (paint segm.length (segm.getD 0 []).length children)

/-- Linearly spaced interior levels: one executable member of the level
generator family. -/
def linLevels (n : ℕ) (fl peak : ℚ) : List ℚ :=
  (List.range n).map (fun i => fl + (peak - fl) * (i + 1) / (n + 1))

/-- The set of positive labels of a label grid. -/
def posLabels (g : GridN) : Finset ℕ := (positiveList g).toFinset

/-- The number of distinct positive labels of a label grid. -/
def nlabels (g : GridN) : ℕ := (posLabels g).card

theorem mem_firstsAux : ∀ (l seen : List ℕ) (a : ℕ),
    a ∈ firstsAux l seen ↔ a ∈ l ∧ a ∉ seen := by
  intro l
  induction l with
  | nil => intro seen a; simp [firstsAux]
  | cons b l2 ih =>
    intro seen a
    by_cases hb : b ∈ seen
    · rw [firstsAux, if_pos hb, ih]
      constructor
      · rintro ⟨h1, h2⟩
        exact ⟨List.mem_cons_of_mem b h1, h2⟩
      · rintro ⟨h1, h2⟩
        rcases List.mem_cons.mp h1 with rfl | h1
        · exact absurd hb h2
        · exact ⟨h1, h2⟩
    · rw [firstsAux, if_neg hb]
      by_cases hab : a = b
      · subst hab
        simp [hb]
      · simp only [List.mem_cons, hab, false_or, ih, List.mem_cons]

theorem nodup_firstsAux : ∀ (l seen : List ℕ), (firstsAux l seen).Nodup := by
  intro l
  induction l with
  | nil => intro seen; simp [firstsAux]
  | cons b l2 ih =>
    intro seen
    by_cases hb : b ∈ seen
    · rw [firstsAux, if_pos hb]; exact ih seen
    · rw [firstsAux, if_neg hb]
      rw [List.nodup_cons]
      refine ⟨?_, ih (b :: seen)⟩
      intro hcon
      exact ((mem_firstsAux l2 (b :: seen) b).mp hcon).2 (by simp)

theorem mem_firsts (l : List ℕ) (a : ℕ) : a ∈ firsts l ↔ a ∈ l := by
  unfold firsts
  rw [mem_firstsAux]
  simp

theorem nodup_firsts (l : List ℕ) : (firsts l).Nodup := nodup_firstsAux l []

theorem mem_positiveList (g : GridN) (v : ℕ) :
    v ∈ positiveList g ↔ v ∈ g.flatten ∧ 0 < v := by
  simp only [positiveList, List.mem_filter, decide_eq_true_eq]

theorem positiveList_relabel (g : GridN) :
    positiveList (relabel g) =
      (positiveList g).map (relabelFun (firsts (positiveList g))) := by
  unfold relabel
  unfold positiveList
  rw [← List.map_flatten, List.filter_map]
  congr 1
  apply List.filter_congr
  intro v _
  cases v with
  | zero => simp [relabelFun]
  | succ k => simp [relabelFun]

theorem posLabels_relabel (g : GridN) :
    posLabels (relabel g) = Finset.Icc 1 (nlabels (relabel g)) := by
  have hset : posLabels (relabel g) =
      Finset.Icc 1 (firsts (positiveList g)).length := by
    ext m
    simp only [posLabels, List.mem_toFinset, positiveList_relabel, List.mem_map,
      Finset.mem_Icc]
    constructor
    · rintro ⟨v, hv, rfl⟩
      have hpos : 0 < v := ((mem_positiveList g v).mp hv).2
      have hvfs : v ∈ firsts (positiveList g) := (mem_firsts _ _).mpr hv
      have hidx : (firsts (positiveList g)).indexOf v <
          (firsts (positiveList g)).length := List.indexOf_lt_length.mpr hvfs
      have : relabelFun (firsts (positiveList g)) v =
          (firsts (positiveList g)).indexOf v + 1 := by
        simp [relabelFun, Nat.pos_iff_ne_zero.mp hpos]
      omega
    · rintro ⟨hm1, hm2⟩
      have hlt : m - 1 < (firsts (positiveList g)).length := by omega
      refine ⟨(firsts (positiveList g))[m - 1], ?_, ?_⟩
      · exact (mem_firsts _ _).mp (List.getElem_mem hlt)
      · have hidx : (firsts (positiveList g)).indexOf
            ((firsts (positiveList g))[m - 1]) = m - 1 :=
          List.indexOf_getElem (nodup_firsts _) (m - 1) hlt
        have hm0 : (firsts (positiveList g))[m - 1] ≠ 0 := by
          intro h0
          have := (mem_firsts _ _).mp (List.getElem_mem hlt)
          rw [h0] at this
          exact absurd ((mem_positiveList g 0).mp this).2 (lt_irrefl 0)
        simp only [relabelFun, if_neg hm0, hidx]
        omega
  rw [hset]
  have hcard : nlabels (relabel g) = (firsts (positiveList g)).length := by
    unfold nlabels
    rw [hset, Nat.card_Icc]
    omega
  rw [hcard]

/-- C3: after every `detect` and after every `deblend`, the set of
positive labels of the returned segmentation map is exactly
{1, ..., nlabels}, and every labeled pixel carries exactly one label
(its region membership is unique, the map being single-valued). -/
theorem C3_label_contiguity (data thr : GridQ) (minPix : ℕ)
    (conn : Connectivity) (kernel : Option GridQ)
    (levelsOf : ℕ → ℚ → ℚ → List ℚ) (segm : GridN) (nlev : ℕ)
    (contrast : ℚ) (kernel2 : Option GridQ) :
    (posLabels (detect data thr minPix conn kernel) =
        Finset.Icc 1 (nlabels (detect data thr minPix conn kernel)) ∧
      ∀ p : Pix2, 0 < nval (detect data thr minPix conn kernel) p →
        ∃! l : ℕ, 0 < l ∧ nval (detect data thr minPix conn kernel) p = l) ∧
    (posLabels (deblend levelsOf data segm minPix nlev contrast kernel2) =
        Finset.Icc 1 (nlabels (deblend levelsOf data segm minPix nlev contrast kernel2)) ∧
      ∀ p : Pix2, 0 < nval (deblend levelsOf data segm minPix nlev contrast kernel2) p →
        ∃! l : ℕ, 0 < l ∧ nval (deblend levelsOf data segm minPix nlev contrast kernel2) p = l) := by
  refine ⟨⟨?_, ?_⟩, ⟨?_, ?_⟩⟩
  · exact posLabels_relabel _
  · intro p hp
    exact ⟨nval (detect data thr minPix conn kernel) p, ⟨hp, rfl⟩,
      fun y hy => hy.2.symm⟩
  · exact posLabels_relabel _
  · intro p hp
    exact ⟨nval (deblend levelsOf data segm minPix nlev contrast kernel2) p,
      ⟨hp, rfl⟩, fun y hy => hy.2.symm⟩

theorem relabel_zeroGrid (h w : ℕ) : relabel (zeroGrid h w) = zeroGrid h w := by
  unfold relabel zeroGrid
  simp [List.map_map, relabelFun]

/-- C4: when no connected component survives the `min_pixels` filter,
`detect` returns the all-zero map of the input's shape as its ordinary
return value (the model's `detect` returns a segmentation map, never an
error: `EmptyDetection` is a structurally valid empty result). -/
theorem C4_empty_detection (data thr : GridQ) (minPix : ℕ)
    (conn : Connectivity) (kernel : Option GridQ)
    (h : ∀ c ∈ connComponents (adjacent conn)
        ((allCoords (gridH data) (gridW data)).filter
          (fun p => decide (gval thr p ≤ gval (smoothOpt kernel data) p))),
        c.length < minPix) :
    detect data thr minPix conn kernel = zeroGrid (gridH data) (gridW data) := by
  simp only [detect]
  have hs : (connComponents (adjacent conn)
      ((allCoords (gridH data) (gridW data)).filter
        (fun p => decide (gval thr p ≤ gval (smoothOpt kernel data) p)))).filter
      (fun c => decide (minPix ≤ c.length)) = [] := by
    rw [List.filter_eq_nil_iff]
    intro c hc
    simpa using Nat.not_le.mpr (h c hc)
  rw [hs]
  have hp : paint (gridH data) (gridW data) [] = zeroGrid (gridH data) (gridW data) := by
    unfold paint zeroGrid labelOf
    simp
  rw [hp, relabel_zeroGrid]

/-- Witness for the empty-detection theorem: a 1-by-1 grid whose single
pixel is below threshold yields the all-zero map. -/
theorem C4_empty_detection_witness :
    detect [[1]] [[2]] 1 .eight none = zeroGrid 1 1 :=
  C4_empty_detection [[1]] [[2]] 1 .eight none (by decide)

theorem flood_perm (adj : Pix2 → Pix2 → Bool) :
    ∀ (fuel : ℕ) (todo rem acc : List Pix2),
      ((flood adj fuel todo rem acc).1 ++ (flood adj fuel todo rem acc).2).Perm
        (acc ++ (todo ++ rem)) := by
  intro fuel
  induction fuel with
  | zero => intro todo rem acc; simp [flood]
  | succ n ih =>
    intro todo rem acc
    cases todo with
    | nil => simp [flood]
    | cons p todo2 =>
      simp only [flood, List.partition_eq_filter_filter]
      have hperm := ih (todo2 ++ rem.filter (fun q => adj p q))
        (rem.filter (not ∘ fun q => adj p q)) (acc ++ [p])
      refine hperm.trans ?_
      have hfa : (rem.filter (fun q => adj p q) ++
          rem.filter (not ∘ fun q => adj p q)).Perm rem := by
        have := List.filter_append_perm (fun q => adj p q) rem
        simpa [Function.comp] using this
      have h1 : acc ++ [p] ++ (todo2 ++ rem.filter (fun q => adj p q) ++
          rem.filter (not ∘ fun q => adj p q)) =
          acc ++ (p :: (todo2 ++ (rem.filter (fun q => adj p q) ++
            rem.filter (not ∘ fun q => adj p q)))) := by
        simp
      rw [h1]
      refine List.Perm.append_left acc (List.Perm.cons p ?_)
      exact List.Perm.append_left todo2 hfa

theorem flood_rem_sublist (adj : Pix2 → Pix2 → Bool) :
    ∀ (fuel : ℕ) (todo rem acc : List Pix2),
      (flood adj fuel todo rem acc).2.Sublist rem := by
  intro fuel
  induction fuel with
  | zero => intro todo rem acc; simp [flood]
  | succ n ih =>
    intro todo rem acc
    cases todo with
    | nil => simp [flood]
    | cons p todo2 =>
      simp only [flood, List.partition_eq_filter_filter]
      exact (ih _ _ _).trans (List.filter_sublist rem)

theorem flood_seed (adj : Pix2 → Pix2 → Bool) :
    ∀ (fuel : ℕ) (todo rem acc : List Pix2) (x : Pix2),
      x ∈ acc ++ todo → x ∈ (flood adj fuel todo rem acc).1 := by
  intro fuel
  induction fuel with
  | zero => intro todo rem acc x hx; simpa [flood] using hx
  | succ n ih =>
    intro todo rem acc x hx
    cases todo with
    | nil => simpa [flood] using hx
    | cons p todo2 =>
      simp only [flood, List.partition_eq_filter_filter]
      apply ih
      simp only [List.mem_append, List.mem_cons] at hx ⊢
      rcases hx with hx | hx | hx
      · exact Or.inl (Or.inl hx)
      · exact Or.inl (Or.inr (by simp [hx]))
      · exact Or.inr (Or.inl hx)

theorem flood_complete (adj : Pix2 → Pix2 → Bool) :
    ∀ (fuel : ℕ) (todo rem acc : List Pix2),
      todo.length + rem.length ≤ fuel →
      ∀ q ∈ (flood adj fuel todo rem acc).2,
        ∀ x ∈ (flood adj fuel todo rem acc).1, x ∉ acc → adj x q = false := by
  intro fuel
  induction fuel with
  | zero =>
    intro todo rem acc hfuel q hq x hx hxa
    have htodo : todo = [] := by
      cases todo with
      | nil => rfl
      | cons a b => simp at hfuel
    subst htodo
    simp only [flood, List.append_nil] at hq hx
    exact absurd hx hxa
  | succ n ih =>
    intro todo rem acc hfuel q hq x hx hxa
    cases todo with
    | nil =>
      simp only [flood] at hq hx
      exact absurd hx hxa
    | cons p todo2 =>
      simp only [flood, List.partition_eq_filter_filter] at hq hx
      have hlen : (todo2 ++ rem.filter (fun q => adj p q)).length +
          (rem.filter (not ∘ fun q => adj p q)).length ≤ n := by
        have := (List.filter_append_perm (fun q => adj p q) rem).length_eq
        simp only [List.length_append] at this ⊢
        have h2 : (rem.filter (not ∘ fun q => adj p q)).length =
            (rem.filter (fun x => !adj p x)).length := by
          congr 1
        simp only [List.length_cons] at hfuel
        omega
      by_cases hxp : x ∈ acc ++ [p]
      · have hxep : x = p := by
          simp only [List.mem_append, List.mem_cons, List.not_mem_nil, or_false] at hxp
          rcases hxp with h | h
          · exact absurd h hxa
          · exact h
        subst hxep
        have hq2 : q ∈ rem.filter (not ∘ fun q => adj x q) :=
          (flood_rem_sublist adj n _ _ _).mem hq
        have := (List.mem_filter.mp hq2).2
        simpa using this
      · exact ih _ _ _ hlen q hq x hx hxp

theorem components_nil (adj : Pix2 → Pix2 → Bool) :
    ∀ fuel, components adj fuel [] = [] := by
  intro fuel
  cases fuel <;> simp [components]

theorem components_flatten_perm (adj : Pix2 → Pix2 → Bool) :
    ∀ (fuel : ℕ) (l : List Pix2), l.length ≤ fuel →
      (components adj fuel l).flatten.Perm l := by
  intro fuel
  induction fuel with
  | zero =>
    intro l hl
    have : l = [] := List.length_eq_zero.mp (Nat.le_zero.mp hl)
    subst this
    simp [components]
  | succ n ih =>
    intro l hl
    cases l with
    | nil => simp [components]
    | cons p rest =>
      simp only [components, List.flatten_cons]
      have hsub := flood_rem_sublist adj (rest.length + 1) [p] rest []
      have hlen : (flood adj (rest.length + 1) [p] rest []).2.length ≤ n := by
        have := hsub.length_le
        simp only [List.length_cons] at hl
        omega
      have hperm := flood_perm adj (rest.length + 1) [p] rest []
      have h1 : ((flood adj (rest.length + 1) [p] rest []).1 ++
          (components adj n (flood adj (rest.length + 1) [p] rest []).2).flatten).Perm
          ((flood adj (rest.length + 1) [p] rest []).1 ++
            (flood adj (rest.length + 1) [p] rest []).2) :=
        List.Perm.append_left _ (ih _ hlen)
      simpa using h1.trans hperm

theorem connComponents_single (adj : Pix2 → Pix2 → Bool) (p : Pix2)
    (rest : List Pix2) (hnd : (p :: rest).Nodup)
    (hconn : ∀ q ∈ rest, Relation.ReflTransGen
      (fun a b => b ∈ p :: rest ∧ adj a b = true) p q) :
    ∃ c, connComponents adj (p :: rest) = [c] ∧ ∀ x, x ∈ c ↔ x ∈ p :: rest := by
  have hperm : ((flood adj (rest.length + 1) [p] rest []).1 ++
      (flood adj (rest.length + 1) [p] rest []).2).Perm (p :: rest) := by
    simpa using flood_perm adj (rest.length + 1) [p] rest []
  have hnd2 : ((flood adj (rest.length + 1) [p] rest []).1 ++
      (flood adj (rest.length + 1) [p] rest []).2).Nodup :=
    hperm.nodup_iff.mpr hnd
  have hclosed : ∀ z, Relation.ReflTransGen
      (fun a b => b ∈ p :: rest ∧ adj a b = true) p z →
      z ∈ (flood adj (rest.length + 1) [p] rest []).1 := by
    intro z hz
    induction hz with
    | refl => exact flood_seed adj _ [p] rest [] p (by simp)
    | tail h1 h2 ih =>
      have hz2 := h2.1
      have : _ ∈ (flood adj (rest.length + 1) [p] rest []).1 ++
          (flood adj (rest.length + 1) [p] rest []).2 :=
        hperm.mem_iff.mpr hz2
      rcases List.mem_append.mp this with hin | hin
      · exact hin
      · exfalso
        have hfalse := flood_complete adj (rest.length + 1) [p] rest []
          (by simp only [List.length_cons, List.length_nil]; omega) _ hin _ ih (by simp)
        rw [h2.2] at hfalse
        exact Bool.noConfusion hfalse
  have hempty : (flood adj (rest.length + 1) [p] rest []).2 = [] := by
    cases hf2 : (flood adj (rest.length + 1) [p] rest []).2 with
    | nil => rfl
    | cons q t =>
      exfalso
      have hq2 : q ∈ (flood adj (rest.length + 1) [p] rest []).2 := by
        rw [hf2]; simp
      have hqrest : q ∈ rest :=
        (flood_rem_sublist adj (rest.length + 1) [p] rest []).mem hq2
      have hq1 : q ∈ (flood adj (rest.length + 1) [p] rest []).1 :=
        hclosed q (hconn q hqrest)
      have hdisj := (List.nodup_append.mp hnd2).2.2
      exact hdisj hq1 hq2
  refine ⟨(flood adj (rest.length + 1) [p] rest []).1, ?_, ?_⟩
  · show components adj (p :: rest).length (p :: rest) = _
    simp only [List.length_cons, components]
    rw [hempty, components_nil]
  · intro x
    have := hperm.mem_iff (a := x)
    rw [hempty] at this
    simpa using this

theorem adjacent_symm (conn : Connectivity) (p q : Pix2) :
    adjacent conn p q = adjacent conn q p := by
  have hd1 : natDist p.1 q.1 = natDist q.1 p.1 := by
    simp [natDist, Nat.max_comm, Nat.min_comm]
  have hd2 : natDist p.2 q.2 = natDist q.2 p.2 := by
    simp [natDist, Nat.max_comm, Nat.min_comm]
  cases conn <;> simp [adjacent, hd1, hd2, ne_comm]

theorem mem_allCoords (h w : ℕ) (p : Pix2) :
    p ∈ allCoords h w ↔ p.1 < h ∧ p.2 < w := by
  cases p with
  | mk r c => simp [allCoords, List.mem_range]

theorem nodup_allCoords (h w : ℕ) : (allCoords h w).Nodup :=
  (List.nodup_range h).product (List.nodup_range w)

/-- One grid step of 8-connected reachability among in-bound pixels. -/
def gridRel (h w : ℕ) (a b : Pix2) : Prop :=
  a ∈ allCoords h w ∧ b ∈ allCoords h w ∧ adjacent .eight a b = true

theorem gridRel_symm (h w : ℕ) : Symmetric (gridRel h w) := by
  intro a b hab
  exact ⟨hab.2.1, hab.1, by rw [adjacent_symm]; exact hab.2.2⟩

theorem adj8_of (p q : Pix2) (hne : p ≠ q) (h1 : natDist p.1 q.1 ≤ 1)
    (h2 : natDist p.2 q.2 ≤ 1) : adjacent .eight p q = true := by
  simp only [adjacent, decide_eq_true_eq]
  exact ⟨hne, h1, h2⟩

theorem reach00 (h w : ℕ) : ∀ r c, r < h → c < w →
    Relation.ReflTransGen (gridRel h w) (0, 0) (r, c) := by
  intro r
  induction r with
  | zero =>
    intro c
    induction c with
    | zero => intro _ _; exact Relation.ReflTransGen.refl
    | succ c ihc =>
      intro hr hc
      refine Relation.ReflTransGen.tail (ihc hr (Nat.lt_of_succ_lt hc)) ?_
      refine ⟨(mem_allCoords h w _).mpr ⟨hr, Nat.lt_of_succ_lt hc⟩,
        (mem_allCoords h w _).mpr ⟨hr, hc⟩, adj8_of _ _ ?_ ?_ ?_⟩
      · simp
      · simp [natDist]
      · simp [natDist]
  | succ r ihr =>
    intro c hr hc
    refine Relation.ReflTransGen.tail (ihr c (Nat.lt_of_succ_lt hr) hc) ?_
    refine ⟨(mem_allCoords h w _).mpr ⟨Nat.lt_of_succ_lt hr, hc⟩,
      (mem_allCoords h w _).mpr ⟨hr, hc⟩, adj8_of _ _ ?_ ?_ ?_⟩
    · simp
    · simp [natDist]
    · simp [natDist]

theorem gridPath (h w : ℕ) (a b : Pix2) (ha : a ∈ allCoords h w)
    (hb : b ∈ allCoords h w) :
    Relation.ReflTransGen (gridRel h w) a b := by
  have ha2 := (mem_allCoords h w a).mp ha
  have hb2 := (mem_allCoords h w b).mp hb
  have h1 : Relation.ReflTransGen (gridRel h w) (0, 0) a := by
    have := reach00 h w a.1 a.2 ha2.1 ha2.2
    simpa using this
  have h2 : Relation.ReflTransGen (gridRel h w) (0, 0) b := by
    have := reach00 h w b.1 b.2 hb2.1 hb2.2
    simpa using this
  exact Relation.ReflTransGen.trans
    ((Relation.ReflTransGen.symmetric (gridRel_symm h w)) h1) h2

theorem foldl_min_le (l : List ℚ) : ∀ (a : ℚ),
    l.foldl min a ≤ a ∧ ∀ x ∈ l, l.foldl min a ≤ x := by
  induction l with
  | nil => intro a; exact ⟨le_refl a, by simp⟩
  | cons b t ih =>
    intro a
    obtain ⟨h1, h2⟩ := ih (min a b)
    simp only [List.foldl_cons]
    refine ⟨le_trans h1 (min_le_left a b), ?_⟩
    intro x hx
    rcases List.mem_cons.mp hx with rfl | hx
    · exact le_trans h1 (min_le_right a x)
    · exact h2 x hx

theorem minQ_le (l : List ℚ) (x : ℚ) (hx : x ∈ l) : minQ l ≤ x := by
  cases l with
  | nil => simp at hx
  | cons a t =>
    rcases List.mem_cons.mp hx with rfl | hx
    · exact (foldl_min_le t x).1
    · exact (foldl_min_le t a).2 x hx

/-- Global minimum of the in-bound data values. -/
def globalMin (data : GridQ) : ℚ :=
  minQ ((allCoords (gridH data) (gridW data)).map (gval data))

/-- The all-ones h-by-w label grid: one segment covering the whole grid. -/
def onesGrid (h w : ℕ) : GridN :=
  (List.range h).map (fun _ => (List.range w).map (fun _ => 1))

theorem labelOf_cons_mem (c : List Pix2) (cs : List (List Pix2)) (p : Pix2)
    (hp : p ∈ c) : labelOf (c :: cs) p = 1 := by
  simp [labelOf, List.findIdx?_cons, hp]

theorem firstsAux_subset_seen : ∀ (l seen : List ℕ),
    (∀ x ∈ l, x ∈ seen) → firstsAux l seen = [] := by
  intro l
  induction l with
  | nil => intro seen _; rfl
  | cons b t ih =>
    intro seen hsub
    rw [firstsAux, if_pos (hsub b (by simp))]
    exact ih seen (fun x hx => hsub x (List.mem_cons_of_mem b hx))

theorem firsts_const (l : List ℕ) (a : ℕ) (hne : l ≠ [])
    (hall : ∀ x ∈ l, x = a) : firsts l = [a] := by
  cases l with
  | nil => exact absurd rfl hne
  | cons b t =>
    have hb : b = a := hall b (by simp)
    subst hb
    unfold firsts
    rw [firstsAux, if_neg (by simp)]
    rw [firstsAux_subset_seen t [b] (fun x hx => by simp [hall x (by simp [hx])])]

theorem relabel_onesGrid (h w : ℕ) (hh : 0 < h) (hw : 0 < w) :
    relabel (onesGrid h w) = onesGrid h w := by
  have hone : (1 : ℕ) ∈ positiveList (onesGrid h w) := by
    rw [mem_positiveList]
    refine ⟨?_, Nat.one_pos⟩
    rw [List.mem_flatten]
    refine ⟨(List.range w).map (fun _ => 1), ?_, ?_⟩
    · exact List.mem_map_of_mem _ (List.mem_range.mpr hh)
    · exact List.mem_map_of_mem _ (List.mem_range.mpr hw)
  have hall : ∀ x ∈ positiveList (onesGrid h w), x = 1 := by
    intro x hx
    have := ((mem_positiveList _ x).mp hx).1
    rw [List.mem_flatten] at this
    obtain ⟨row, hrow, hxrow⟩ := this
    simp only [onesGrid, List.mem_map] at hrow
    obtain ⟨_, _, rfl⟩ := hrow
    simp only [List.mem_map] at hxrow
    obtain ⟨_, _, h⟩ := hxrow
    exact h.symm
  have hfirsts : firsts (positiveList (onesGrid h w)) = [1] :=
    firsts_const _ 1 (List.ne_nil_of_mem hone) hall
  unfold relabel
  rw [hfirsts]
  unfold onesGrid
  simp only [List.map_map]
  apply List.map_congr_left
  intro r _
  simp only [Function.comp]
  rw [List.map_map]
  apply List.map_congr_left
  intro c _
  rfl

/-- C6: when the threshold map is everywhere at most the global minimum
of the data (so that every pixel passes the >= comparison, including
pixels exactly at the threshold), `detect` with min_pixels = 1 and
8-connectivity on a nonempty grid returns a single segment, labeled 1,
covering the whole grid. -/
theorem C6_full_grid_single_segment (data thr : GridQ)
    (hh : 0 < gridH data) (hw : 0 < gridW data)
    (hthr : ∀ p ∈ allCoords (gridH data) (gridW data),
      gval thr p ≤ globalMin data) :
    detect data thr 1 .eight none = onesGrid (gridH data) (gridW data) := by
  have hpt : ∀ p ∈ allCoords (gridH data) (gridW data),
      gval thr p ≤ gval data p := by
    intro p hp
    exact le_trans (hthr p hp) (minQ_le _ _ (List.mem_map_of_mem _ hp))
  have hfilter : (allCoords (gridH data) (gridW data)).filter
      (fun p => decide (gval thr p ≤ gval (smoothOpt none data) p)) =
      allCoords (gridH data) (gridW data) := by
    apply List.filter_eq_self.mpr
    intro p hp
    exact decide_eq_true (hpt p hp)
  have h00 : ((0, 0) : Pix2) ∈ allCoords (gridH data) (gridW data) :=
    (mem_allCoords _ _ _).mpr ⟨hh, hw⟩
  simp only [detect]
  rw [hfilter]
  cases hc : allCoords (gridH data) (gridW data) with
  | nil => rw [hc] at h00; simp at h00
  | cons p rest =>
    have hnd : (p :: rest).Nodup := hc ▸ nodup_allCoords _ _
    have hconn : ∀ q ∈ rest, Relation.ReflTransGen
        (fun a b => b ∈ p :: rest ∧ adjacent .eight a b = true) p q := by
      intro q hq
      have hpmem : p ∈ allCoords (gridH data) (gridW data) := by
        rw [hc]; simp
      have hqmem : q ∈ allCoords (gridH data) (gridW data) := by
        rw [hc]; simp [hq]
      refine Relation.ReflTransGen.mono ?_
        (gridPath (gridH data) (gridW data) p q hpmem hqmem)
      intro a b hab
      exact ⟨hc ▸ hab.2.1, hab.2.2⟩
    obtain ⟨c, hcomp, hmem⟩ := connComponents_single (adjacent .eight) p rest hnd hconn
    rw [hcomp]
    have hlen : decide (1 ≤ c.length) = true := by
      have : p ∈ c := (hmem p).mpr (by simp)
      have hpos : 0 < c.length := List.length_pos.mpr (List.ne_nil_of_mem this)
      simpa using hpos
    simp only [List.filter_cons, hlen, if_true, List.filter_nil]
    have hpaint : paint (gridH data) (gridW data) [c] =
        onesGrid (gridH data) (gridW data) := by
      unfold paint onesGrid
      apply List.map_congr_left
      intro r hr
      apply List.map_congr_left
      intro c2 hc2
      apply labelOf_cons_mem
      apply (hmem (r, c2)).mpr
      rw [← hc]
      exact (mem_allCoords _ _ _).mpr ⟨List.mem_range.mp hr, List.mem_range.mp hc2⟩
    rw [hpaint, relabel_onesGrid _ _ hh hw]

/-- Witness for the full-grid detection theorem on a concrete 2-by-2
grid with the threshold exactly at the global minimum. -/
theorem C6_full_grid_witness :
    detect [[3, 4], [5, 6]] [[3, 3], [3, 3]] 1 .eight none = onesGrid 2 2 :=
  C6_full_grid_single_segment [[3, 4], [5, 6]] [[3, 3], [3, 3]]
    (by decide) (by decide) (by decide)

theorem components_ne_nil (adj : Pix2 → Pix2 → Bool) :
    ∀ (fuel : ℕ) (l : List Pix2) (c : List Pix2),
      c ∈ components adj fuel l → c ≠ [] := by
  intro fuel
  induction fuel with
  | zero => intro l c hc; simp [components] at hc
  | succ n ih =>
    intro l c hc
    cases l with
    | nil => simp [components] at hc
    | cons p rest =>
      simp only [components, List.mem_cons] at hc
      rcases hc with rfl | hc
      · intro h0
        have hme := flood_seed adj (rest.length + 1) [p] rest [] p (by simp)
        rw [h0] at hme
        simp at hme
      · exact ih _ _ hc

theorem flux_le_of_subperm (sd : GridQ) (l1 l2 : List Pix2)
    (hsub : l1.Subperm l2) (hpos : ∀ p ∈ l2, 0 ≤ gval sd p) :
    fluxOf sd l1 ≤ fluxOf sd l2 := by
  obtain ⟨l, hlp, hls⟩ := hsub
  unfold fluxOf
  rw [← List.Perm.sum_eq (hlp.map (gval sd))]
  apply List.Sublist.sum_le_sum (hls.map (gval sd))
  intro a ha
  obtain ⟨p, hp, rfl⟩ := List.mem_map.mp ha
  exact hpos p hp

theorem flux_pos (sd : GridQ) (l : List Pix2) (hne : l ≠ [])
    (hpos : ∀ p ∈ l, 0 < gval sd p) : 0 < fluxOf sd l := by
  apply List.sum_pos
  · intro a ha
    obtain ⟨p, hp, rfl⟩ := List.mem_map.mp ha
    exact hpos p hp
  · intro h0
    exact hne (List.map_eq_nil_iff.mp h0)

theorem no_two_survivors (sd : GridQ) (conn : Connectivity)
    (fp : List Pix2) (hnd : fp.Nodup) (hne : fp ≠ [])
    (hpos : ∀ p ∈ fp, 0 < gval sd p) (minPix : ℕ) (lv : ℚ) :
    ¬ 2 ≤ ((connComponents (adjacent conn)
        (fp.filter (fun p => decide (lv ≤ gval sd p)))).filter
      (fun c => decide (minPix ≤ c.length) &&
        decide (1 * (fp.map (gval sd)).sum ≤ fluxOf sd c))).length := by
  intro h2
  set sub := fp.filter (fun p => decide (lv ≤ gval sd p)) with hsubdef
  set comps := connComponents (adjacent conn) sub with hcompsdef
  have hflat : comps.flatten.Perm sub :=
    components_flatten_perm (adjacent conn) sub.length sub (le_refl _)
  have hsubnd : sub.Nodup := hnd.filter _
  have hflnd : comps.flatten.Nodup := hflat.nodup_iff.mpr hsubnd
  have hpairs := (List.nodup_flatten.mp hflnd)
  have hmemsub : ∀ c ∈ comps, ∀ x ∈ c, x ∈ sub := by
    intro c hc x hx
    exact hflat.mem_iff.mp (List.mem_flatten.mpr ⟨c, hc, hx⟩)
  set pred := (fun c : List Pix2 => decide (minPix ≤ c.length) &&
    decide (1 * (fp.map (gval sd)).sum ≤ fluxOf sd c)) with hpreddef
  have hfsub : (comps.filter pred).Sublist comps := List.filter_sublist comps
  match hml : comps.filter pred with
  | [] => rw [hml] at h2; simp at h2
  | [c1] => rw [hml] at h2; simp at h2
  | c1 :: c2 :: t =>
    have hc1f : c1 ∈ comps.filter pred := by rw [hml]; simp
    have hc2f : c2 ∈ comps.filter pred := by rw [hml]; simp
    have hc1 : c1 ∈ comps := (List.mem_filter.mp hc1f).1
    have hc2 : c2 ∈ comps := (List.mem_filter.mp hc2f).1
    have hp1 : 1 * (fp.map (gval sd)).sum ≤ fluxOf sd c1 := by
      have := (List.mem_filter.mp hc1f).2
      simp only [hpreddef, Bool.and_eq_true, decide_eq_true_eq] at this
      exact this.2
    have hp2 : 1 * (fp.map (gval sd)).sum ≤ fluxOf sd c2 := by
      have := (List.mem_filter.mp hc2f).2
      simp only [hpreddef, Bool.and_eq_true, decide_eq_true_eq] at this
      exact this.2
    have hdisj : c1.Disjoint c2 := by
      have hpw : (comps.filter pred).Pairwise List.Disjoint :=
        List.Pairwise.sublist hfsub hpairs.2
      rw [hml] at hpw
      exact (List.pairwise_cons.mp hpw).1 c2 (by simp)
    have hnd1 : c1.Nodup := hpairs.1 c1 hc1
    have hnd2 : c2.Nodup := hpairs.1 c2 hc2
    have hndu : (c1 ++ c2).Nodup := List.nodup_append.mpr ⟨hnd1, hnd2, hdisj⟩
    have hsubu : (c1 ++ c2) ⊆ sub := by
      intro x hx
      rcases List.mem_append.mp hx with hx | hx
      · exact hmemsub c1 hc1 x hx
      · exact hmemsub c2 hc2 x hx
    have hsp : (c1 ++ c2).Subperm sub := hndu.subperm hsubu
    have hposnn : ∀ p ∈ sub, 0 ≤ gval sd p := by
      intro p hp
      exact le_of_lt (hpos p (List.mem_filter.mp hp).1)
    have hle1 : fluxOf sd (c1 ++ c2) ≤ fluxOf sd sub :=
      flux_le_of_subperm sd _ _ hsp hposnn
    have hle2 : fluxOf sd sub ≤ fluxOf sd fp := by
      apply flux_le_of_subperm sd _ _ (List.filter_sublist fp).subperm
      intro p hp
      exact le_of_lt (hpos p hp)
    have hsum : fluxOf sd (c1 ++ c2) = fluxOf sd c1 + fluxOf sd c2 := by
      unfold fluxOf
      rw [List.map_append, List.sum_append]
    have hfp_pos : 0 < fluxOf sd fp := flux_pos sd fp hne hpos
    have htot : fluxOf sd fp = (fp.map (gval sd)).sum := rfl
    rw [one_mul] at hp1 hp2
    rw [← htot] at hp1 hp2
    linarith

theorem labelOf_cons_not_mem (c : List Pix2) (p : Pix2) (hp : p ∉ c) :
    labelOf [c] p = 0 := by
  simp [labelOf, List.findIdx?_cons, hp, List.findIdx?_nil]

theorem deblendLabel_whole (levelsOf : ℕ → ℚ → ℚ → List ℚ) (sd : GridQ)
    (conn : Connectivity) (minPix nlev : ℕ) (fp : List Pix2)
    (hne : fp ≠ []) (hnd : fp.Nodup) (hpos : ∀ p ∈ fp, 0 < gval sd p) :
    deblendLabel levelsOf sd conn minPix nlev 1 fp = [fp] := by
  have hemp : fp.isEmpty = false := by
    cases fp with
    | nil => exact absurd rfl hne
    | cons a t => rfl
  simp only [deblendLabel, hemp, Bool.false_eq_true, if_false]
  by_cases hdeg : maxQ (fp.map (gval sd)) ≤ minQ (fp.map (gval sd))
  · rw [if_pos hdeg]
  · rw [if_neg hdeg]
    have hsplits : (levelsOf nlev (minQ (fp.map (gval sd)))
        (maxQ (fp.map (gval sd)))).filterMap (fun lv =>
        if 2 ≤ ((connComponents (adjacent conn)
            (fp.filter (fun p => decide (lv ≤ gval sd p)))).filter
          (fun c => decide (minPix ≤ c.length) &&
            decide (1 * (fp.map (gval sd)).sum ≤ fluxOf sd c))).length
        then some (((connComponents (adjacent conn)
            (fp.filter (fun p => decide (lv ≤ gval sd p)))).filter
          (fun c => decide (minPix ≤ c.length) &&
            decide (1 * (fp.map (gval sd)).sum ≤ fluxOf sd c))))
        else none) = [] := by
      rw [List.filterMap_eq_nil_iff]
      intro lv _
      rw [if_neg (no_two_survivors sd conn fp hnd hne hpos minPix lv)]
    rw [hsplits]
    rfl

theorem relabel_binary (g : GridN) (hlab : ∀ v ∈ g.flatten, v = 0 ∨ v = 1)
    (hone : 1 ∈ g.flatten) : relabel g = g := by
  have hone2 : (1 : ℕ) ∈ positiveList g :=
    (mem_positiveList g 1).mpr ⟨hone, Nat.one_pos⟩
  have hall : ∀ x ∈ positiveList g, x = 1 := by
    intro x hx
    obtain ⟨hmem, hpos⟩ := (mem_positiveList g x).mp hx
    rcases hlab x hmem with rfl | rfl
    · exact absurd hpos (lt_irrefl 0)
    · rfl
  have hfirsts : firsts (positiveList g) = [1] :=
    firsts_const _ 1 (List.ne_nil_of_mem hone2) hall
  unfold relabel
  rw [hfirsts]
  conv_rhs => rw [← List.map_id g]
  apply List.map_congr_left
  intro row hrow
  have : List.map (relabelFun [1]) row = List.map id row := by
    apply List.map_congr_left
    intro v hv
    have hvf : v ∈ g.flatten := List.mem_flatten.mpr ⟨row, hrow, hv⟩
    rcases hlab v hvf with rfl | rfl
    · rfl
    · rfl
  rw [this, List.map_id]
  rfl

theorem paint_coordsWithLabel_one (segm : GridN)
    (hrect : ∀ row ∈ segm, row.length = (segm.getD 0 []).length)
    (hlab : ∀ v ∈ segm.flatten, v = 0 ∨ v = 1) :
    paint segm.length (segm.getD 0 []).length [coordsWithLabel segm 1] = segm := by
  unfold paint
  apply List.ext_getElem
  · simp
  · intro r h1 h2
    simp only [List.getElem_map, List.getElem_range]
    apply List.ext_getElem
    · simp only [List.length_map, List.length_range]
      exact (hrect (segm[r]) (List.getElem_mem h2)).symm
    · intro c hc1 hc2
      simp only [List.getElem_map, List.getElem_range]
      have hcw : c < (segm.getD 0 []).length := by
        simpa using hc1
      have hnv : nval segm (r, c) = segm[r][c] := by
        unfold nval
        rw [List.getD_eq_getElem segm [] h2]
        exact List.getD_eq_getElem _ _ hc2
      have hmemall : ((r, c) : Pix2) ∈
          allCoords segm.length (segm.getD 0 []).length :=
        (mem_allCoords _ _ _).mpr ⟨h2, hcw⟩
      have hvmem : segm[r][c] ∈ segm.flatten :=
        List.mem_flatten.mpr ⟨segm[r], List.getElem_mem h2, List.getElem_mem hc2⟩
      by_cases hv1 : nval segm (r, c) = 1
      · have hmem : ((r, c) : Pix2) ∈ coordsWithLabel segm 1 := by
          unfold coordsWithLabel
          rw [List.mem_filter]
          exact ⟨hmemall, decide_eq_true hv1⟩
        rw [labelOf_cons_mem _ [] _ hmem, ← hnv, hv1]
      · have hmem : ((r, c) : Pix2) ∉ coordsWithLabel segm 1 := by
          unfold coordsWithLabel
          rw [List.mem_filter]
          intro hcon
          exact hv1 (of_decide_eq_true hcon.2)
        rw [labelOf_cons_not_mem _ _ hmem]
        rcases hlab segm[r][c] hvmem with hval | hval
        · exact hval.symm
        · exact absurd (hnv.trans hval) hv1

/-- C5 (amended): for a rectangular segmentation map containing exactly
one segment with the (contiguity-invariant) label 1, over data whose
in-segment values are strictly positive and with no smoothing kernel,
`deblend` with contrast = 1.0 returns the segmentation unchanged, for
every threshold-level generator, minimum pixel count and level count: at
every level every candidate sub-peak has flux below the maximal merge
threshold (the full parent flux) and is merged back, so no split
survives.  The strict positivity is forced by the counterexample: with
negative in-segment pixels two sub-peaks can each reach the parent's
total flux and survive even at contrast 1.0. -/
theorem C5_deblend_contrast_one (levelsOf : ℕ → ℚ → ℚ → List ℚ)
    (data : GridQ) (segm : GridN) (minPix nlev : ℕ)
    (hrect : ∀ row ∈ segm, row.length = (segm.getD 0 []).length)
    (hlab : ∀ v ∈ segm.flatten, v = 0 ∨ v = 1)
    (hone : 1 ∈ segm.flatten)
    (hpos : ∀ p ∈ coordsWithLabel segm 1, 0 < gval data p) :
    deblend levelsOf data segm minPix nlev 1 none = segm := by
  have hone2 : (1 : ℕ) ∈ positiveList segm :=
    (mem_positiveList segm 1).mpr ⟨hone, Nat.one_pos⟩
  have hall : ∀ x ∈ positiveList segm, x = 1 := by
    intro x hx
    obtain ⟨hmem, hposx⟩ := (mem_positiveList segm x).mp hx
    rcases hlab x hmem with rfl | rfl
    · exact absurd hposx (lt_irrefl 0)
    · rfl
  have hfirsts : firsts (positiveList segm) = [1] :=
    firsts_const _ 1 (List.ne_nil_of_mem hone2) hall
  have hfpne : coordsWithLabel segm 1 ≠ [] := by
    obtain ⟨row, hrow, h1row⟩ := List.mem_flatten.mp hone
    obtain ⟨r, hr, rfl⟩ := List.mem_iff_getElem.mp hrow
    obtain ⟨c, hc, hval⟩ := List.mem_iff_getElem.mp h1row
    apply List.ne_nil_of_mem (a := ((r, c) : Pix2))
    unfold coordsWithLabel
    rw [List.mem_filter]
    constructor
    · refine (mem_allCoords _ _ _).mpr ⟨hr, ?_⟩
      rw [← hrect (segm[r]) (List.getElem_mem hr)]
      exact hc
    · apply decide_eq_true
      unfold nval
      rw [List.getD_eq_getElem segm [] hr, List.getD_eq_getElem _ _ hc]
      exact hval
  have hfpnd : (coordsWithLabel segm 1).Nodup :=
    (nodup_allCoords _ _).filter _
  simp only [deblend, smoothOpt]
  rw [hfirsts]
  simp only [List.flatMap_cons, List.flatMap_nil, List.append_nil]
  rw [deblendLabel_whole levelsOf data .eight minPix nlev
    (coordsWithLabel segm 1) hfpne hfpnd hpos]
  rw [paint_coordsWithLabel_one segm hrect hlab]
  exact relabel_binary segm hlab hone

set_option maxRecDepth 8000 in
/-- C5 counterexample: the one-segment map [[1,1,1]] over data
[[10, -12, 8]] (note the negative middle pixel) deblended with
contrast = 1.0 splits into two segments, so the result differs from the
input although the input contains exactly one segment. -/
theorem C5_deblend_cex :
    (∀ v ∈ ([[1, 1, 1]] : GridN).flatten, v = 0 ∨ v = 1) ∧
    (1 : ℕ) ∈ ([[1, 1, 1]] : GridN).flatten ∧
    deblend linLevels [[10, -12, 8]] [[1, 1, 1]] 1 2 1 none ≠ [[1, 1, 1]] := by
  refine ⟨by decide, by decide, ?_⟩
  have heq : deblend linLevels [[10, -12, 8]] [[1, 1, 1]] 1 2 1 none = [[1, 1, 2]] := by
    with_unfolding_all rfl
  rw [heq]
  decide

/-- Witness for the amended contrast-1 deblending theorem on a concrete
one-segment map over positive data. -/
theorem C5_deblend_witness :
    deblend linLevels [[5]] [[1]] 1 4 1 none = [[1]] :=
  C5_deblend_contrast_one linLevels [[5]] [[1]] 1 4
    (by decide) (by decide) (by decide) (by decide)

/-- Modelled from the spec: the per-source record measure_properties
computes.  The flux uncertainty is the root of `fluxErrSq`, which is
stored squared (the sum of the squared in-segment error values) to stay
in the rationals; the sky position is the result of `pixel_to_sky` at
the centroid when a frame is supplied. -/
structure SourceProperties where
  count : ℕ
  flux : ℚ
  centroid : ℚ × ℚ
  fluxErrSq : Option ℚ
  sky : Option (Except TError (ℝ × ℝ))

/-- Centroid (x, y) = (intensity-weighted mean column, mean row) of a
footprint. -/
noncomputable def centroidOf (data : GridQ) (fp : List Pix2) : ℚ × ℚ :=
  ((fp.map (fun p => gval data p * (p.2 : ℚ))).sum / fluxOf data fp,
   (fp.map (fun p => gval data p * (p.1 : ℚ))).sum / fluxOf data fp)

/-- Modelled from the spec: `measure_properties(data, segmentation,
error?, frame?)`: for every positive label computes pixel count, total
flux, intensity-weighted centroid (first moments), the propagated flux
uncertainty (root-sum-of-squares over the segment's error values, stored
squared) when `error` is supplied, and the sky position via
`pixel_to_sky` at the centroid when `frame` is supplied.  The
segmentation map is returned untouched alongside the catalog,
modelling that the call never mutates it. -/
noncomputable def measure_properties (data : GridQ) (segm : GridN)
    (err : Option GridQ) (frame : Option CoordinateFrame) :
    GridN × List (ℕ × SourceProperties) :=
  (segm, (firsts (positiveList segm)).map (fun l =>
    (l, { count := (coordsWithLabel segm l).length,
          flux := fluxOf data (coordsWithLabel segm l),
          centroid := centroidOf data (coordsWithLabel segm l),
          fluxErrSq := err.map (fun e =>
            ((coordsWithLabel segm l).map (fun p => gval e p ^ 2)).sum),
          sky := frame.map (fun f => pixel_to_sky1 f
            (((centroidOf data (coordsWithLabel segm l)).1 : ℝ),
             ((centroidOf data (coordsWithLabel segm l)).2 : ℝ)) 0) })))

theorem lookup_graph {β : Type} (f : ℕ → β) :
    ∀ (keys : List ℕ) (l : ℕ), l ∈ keys →
      List.lookup l (keys.map (fun k => (k, f k))) = some (f l) := by
  intro keys
  induction keys with
  | nil => intro l hl; simp at hl
  | cons k rest ih =>
    intro l hl
    by_cases h : l = k
    · subst h
      simp [List.lookup]
    · have hbeq : (l == k) = false := beq_eq_false_iff_ne.mpr h
      simp only [List.map_cons, List.lookup, hbeq]
      exact ih l (by rcases List.mem_cons.mp hl with rfl | hl2; exact absurd rfl h; exact hl2)

/-- C8: `measure_properties` returns the segmentation map unchanged
(never mutates it), and its catalog maps every positive label of the
segmentation to a record with the segment's pixel count, total flux,
intensity-weighted centroid, squared root-sum-of-squares flux
uncertainty when an error grid is supplied, and the `pixel_to_sky`
position of the centroid when a frame is supplied. -/
theorem C8_measure_properties_immutable (data : GridQ) (segm : GridN)
    (err : Option GridQ) (frame : Option CoordinateFrame) :
    (measure_properties data segm err frame).1 = segm ∧
    ∀ l ∈ posLabels segm, ∃ props : SourceProperties,
      List.lookup l (measure_properties data segm err frame).2 = some props ∧
      props.count = (coordsWithLabel segm l).length ∧
      props.flux = fluxOf data (coordsWithLabel segm l) ∧
      props.centroid = centroidOf data (coordsWithLabel segm l) ∧
      props.fluxErrSq = err.map (fun e =>
        ((coordsWithLabel segm l).map (fun p => gval e p ^ 2)).sum) ∧
      props.sky = frame.map (fun f => pixel_to_sky1 f
        (((centroidOf data (coordsWithLabel segm l)).1 : ℝ),
         ((centroidOf data (coordsWithLabel segm l)).2 : ℝ)) 0) := by
  refine ⟨rfl, ?_⟩
  intro l hl
  have hl2 : l ∈ firsts (positiveList segm) := by
    rw [mem_firsts]
    exact List.mem_toFinset.mp hl
  refine ⟨_, lookup_graph _ (firsts (positiveList segm)) l hl2, rfl, rfl, rfl, rfl, rfl⟩

/-- Witness for the measurement theorem: a 1-by-1 segmentation with an
error grid and a frame supplied. -/
theorem C8_measure_properties_witness :
    (measure_properties [[2]] [[1]] (some [[3]]) (some witFrame)).1 = [[1]] ∧
    ∃ props : SourceProperties,
      List.lookup 1 (measure_properties [[2]] [[1]] (some [[3]]) (some witFrame)).2 =
        some props ∧
      props.count = (coordsWithLabel [[1]] 1).length ∧
      props.flux = fluxOf [[2]] (coordsWithLabel [[1]] 1) ∧
      props.centroid = centroidOf [[2]] (coordsWithLabel [[1]] 1) ∧
      props.fluxErrSq = some (((coordsWithLabel [[1]] 1).map
        (fun p => gval [[3]] p ^ 2)).sum) ∧
      props.sky = some (pixel_to_sky1 witFrame
        (((centroidOf [[2]] (coordsWithLabel [[1]] 1)).1 : ℝ),
         ((centroidOf [[2]] (coordsWithLabel [[1]] 1)).2 : ℝ)) 0) :=
  ⟨(C8_measure_properties_immutable [[2]] [[1]] (some [[3]]) (some witFrame)).1,
   (C8_measure_properties_immutable [[2]] [[1]] (some [[3]]) (some witFrame)).2
     1 (by decide)⟩

/-- The three overlap methods of aperture photometry. -/
inductive ApMethod where
  | exact
  | center
  | subpixel
deriving DecidableEq, Repr

/-- A circular aperture at a pixel position with a radius in pixels. -/
structure CircularAperture where
  cx : ℚ
  cy : ℚ
  r : ℚ

/-- Is the point (x, y) inside (or on) the aperture circle? -/
def insideCircle (ap : CircularAperture) (x y : ℚ) : Bool :=
  decide ((x - ap.cx) ^ 2 + (y - ap.cy) ^ 2 ≤ ap.r ^ 2)

/-- Overlap fraction of the 'center' method: all or nothing by the pixel
center. -/
def centerWeight (ap : CircularAperture) (p : Pix2) : ℚ :=
  if insideCircle ap (p.2 : ℚ) (p.1 : ℚ) then 1 else 0

/-- Overlap fraction of the 'subpixel' method: the fraction of the s-by-s
subpixel centers falling inside the circle. -/
def subpixelWeight (ap : CircularAperture) (s : ℕ) (p : Pix2) : ℚ :=
  (((List.range s).flatMap (fun i => (List.range s).map (fun j => (i, j)))).filter
    (fun ij => insideCircle ap
      ((p.2 : ℚ) - 1 / 2 + (2 * (ij.2 : ℚ) + 1) / (2 * (s : ℚ)))
      ((p.1 : ℚ) - 1 / 2 + (2 * (ij.1 : ℚ) + 1) / (2 * (s : ℚ))))).length /
    ((s : ℚ) * (s : ℚ))

/-- Overlap fraction of the 'exact' method: the exact area of the
intersection of the aperture disk with the unit pixel square. -/
noncomputable def exactWeight (ap : CircularAperture) (p : Pix2) : ℝ :=
  (MeasureTheory.volume {q : ℝ × ℝ |
    (q.1 - (ap.cx : ℝ)) ^ 2 + (q.2 - (ap.cy : ℝ)) ^ 2 ≤ (ap.r : ℝ) ^ 2 ∧
    (p.2 : ℝ) - 1 / 2 ≤ q.1 ∧ q.1 ≤ (p.2 : ℝ) + 1 / 2 ∧
    (p.1 : ℝ) - 1 / 2 ≤ q.2 ∧ q.2 ≤ (p.1 : ℝ) + 1 / 2}).toReal

/-- Overlap fraction of a pixel under the chosen method; the `subpixels`
keyword is consulted only by the 'subpixel' method. -/
noncomputable def pixelWeight (ap : CircularAperture) (m : ApMethod)
    (subpixels : ℕ) (p : Pix2) : ℝ :=
  match m with
  | .center => (centerWeight ap p : ℝ)
  | .subpixel => (subpixelWeight ap subpixels p : ℝ)
  | .exact => exactWeight ap p

/-- One row of the photometry table. -/
structure PhotRow where
  xcenter : ℚ
  ycenter : ℚ
  apertureSum : ℝ
  apertureSumErr : Option ℝ

/-- Modelled from the notebook's `aperture_photometry`: sum of the data
values weighted by the aperture/pixel overlap fraction under the chosen
method ('exact' by default, 'center', or 'subpixel' with its `subpixels`
subdivision), plus the propagated error when an error grid is given. -/
noncomputable def aperture_photometry (data : GridQ) (err : Option GridQ)
    (ap : CircularAperture) (m : ApMethod) (subpixels : ℕ) : PhotRow :=
  { xcenter := ap.cx, ycenter := ap.cy,
    apertureSum := ((allCoords (gridH data) (gridW data)).map
      (fun p => (gval data p : ℝ) * pixelWeight ap m subpixels p)).sum,
    apertureSumErr := err.map (fun e =>
      Real.sqrt (((allCoords (gridH data) (gridW data)).map
        (fun p => (gval e p : ℝ) ^ 2 * pixelWeight ap m subpixels p ^ 2)).sum)) }

/-- C10: for the 'exact' and 'center' overlap methods the `subpixels`
keyword is ignored: two `aperture_photometry` calls differing only in
the `subpixels` value return equal photometry tables. -/
theorem C10_subpixels_ignored (data : GridQ) (err : Option GridQ)
    (ap : CircularAperture) (m : ApMethod) (s1 s2 : ℕ)
    (hm : m = .exact ∨ m = .center) :
    aperture_photometry data err ap m s1 = aperture_photometry data err ap m s2 := by
  rcases hm with rfl | rfl <;> rfl

/-- Witness for the subpixels-independence theorem at concrete inputs. -/
theorem C10_subpixels_witness :
    aperture_photometry [[1]] (some [[1]]) ⟨0, 0, 1⟩ .center 2 =
      aperture_photometry [[1]] (some [[1]]) ⟨0, 0, 1⟩ .center 7 :=
  C10_subpixels_ignored [[1]] (some [[1]]) ⟨0, 0, 1⟩ .center 2 7 (Or.inr rfl)
